import Mathlib

/-!
Verification of the weasel S-expression JIT core.

The development shallowly embeds the canonical code generator of
`src/unnamed/part_000` (namespace `sexpr`: `native_function`, the builtin
table, `compile`) together with the object model and `print` routine of
`src/unnamed/part_001`, and, for the alignment claims, the earlier draft
compiler of `src/sexpr.h` (`compiled_fn`, `compile` with the `stackofs`
parity counter).  Machine code is embedded as a list of abstract
instructions, one constructor per opcode byte string the sources emit;
the runtime behaviour of an emitted region is given by an interpreter
over those instructions acting on the host evaluation stack.
-/

set_option linter.unusedVariables false

namespace sexpr

/-- Atoms are opaque strings: `using atom = std::string;` (part_001). -/
abbrev atom := String

/-- Objects: `using object = std::variant<struct list, atom>;` where
`struct list : std::vector<object> { atom op; }` (part_001).  A list
carries its operator head and its children in order. -/
inductive object where
  | atom (s : String)
  | list (op : String) (children : List object)
deriving Repr

mutual
/-- Boolean equality on objects (structural, as for the underlying
`std::variant` value comparison). -/
def object.beq : object → object → Bool
  | .atom a, .atom b => a == b
  | .list o1 c1, .list o2 c2 => o1 == o2 && object.beqList c1 c2
  | _, _ => false
/-- Boolean equality on child vectors. -/
def object.beqList : List object → List object → Bool
  | [], [] => true
  | a :: as, b :: bs => object.beq a b && object.beqList as bs
  | _, _ => false
end

mutual
theorem object.beq_eq : ∀ a b : object, object.beq a b = true ↔ a = b
  | .atom a, .atom b => by simp [object.beq]
  | .atom a, .list o c => by simp [object.beq]
  | .list o c, .atom a => by simp [object.beq]
  | .list o1 c1, .list o2 c2 => by
    simp [object.beq, object.beqList_eq c1 c2]
theorem object.beqList_eq : ∀ a b : List object, object.beqList a b = true ↔ a = b
  | [], [] => by simp [object.beqList]
  | [], b :: bs => by simp [object.beqList]
  | a :: as, [] => by simp [object.beqList]
  | a :: as, b :: bs => by
    simp [object.beqList, object.beq_eq a b, object.beqList_eq as bs]
end

instance : DecidableEq object := fun a b =>
  decidable_of_iff (object.beq a b = true) (object.beq_eq a b)

/-! ### Numeric conversions

Models of the C++ standard library routines the builtins call:
`std::stol` (parse a signed decimal prefix after optional whitespace and
sign, raising `std::out_of_range` when the value does not fit a 64-bit
`long`) and `std::to_string` on integers.  Values are carried as
unbounded `Int`, but every point where the source is confined to a
machine `long` is guarded: `stol` rejects out-of-range values, and the
builtins fault where the source's `long` addition or multiplication
would overflow (signed overflow being undefined behaviour in C++). -/

/-- `std::numeric_limits<long>::min()` on LP64 (the platform part_000
targets: `sysconf`/`mmap`/x86-64). -/
def long_min : Int := -9223372036854775808

/-- `std::numeric_limits<long>::max()` on LP64. -/
def long_max : Int := 9223372036854775807

/-- Whether a value fits a machine `long`. -/
def inLongRange (n : Int) : Prop := long_min ≤ n ∧ n ≤ long_max

instance (n : Int) : Decidable (inLongRange n) :=
  inferInstanceAs (Decidable (long_min ≤ n ∧ n ≤ long_max))

/-- Model of `std::isspace` for the default locale, by code point. -/
def isSpaceChar (c : Char) : Bool :=
  c.toNat == 32 || (9 ≤ c.toNat && c.toNat ≤ 13)

/-- Decimal digit value of a character, if it is a digit. -/
def digitVal (c : Char) : Option Nat :=
  if 48 ≤ c.toNat && c.toNat ≤ 57 then some (c.toNat - 48) else none

/-- Accumulate the maximal leading run of decimal digits, as `std::stol`
does after the sign; parsing stops at the first non-digit. -/
def parseDigitsAcc : List Char → Nat → Nat
  | [], acc => acc
  | c :: cs, acc =>
    match digitVal c with
    | some d => parseDigitsAcc cs (acc * 10 + d)
    | none => acc

/-- Whether the character list starts with a decimal digit (`std::stol`
raises `std::invalid_argument` when no digit follows the sign). -/
def firstIsDigit : List Char → Bool
  | c :: _ => (digitVal c).isSome
  | [] => false

/-- Model of `std::stol`: skip whitespace, read an optional sign, then
require and parse a maximal nonempty run of decimal digits, and reject
the value when it does not fit a machine `long`.  `none` models the
exceptions thrown by `std::stol`: `std::invalid_argument` when no digit
follows the sign, and `std::out_of_range` when the converted value lies
outside `[long_min, long_max]` (a negative value only needs the lower
bound, a non-negative one only the upper). -/
def stol (s : String) : Option Int :=
  match s.data.dropWhile (fun c => isSpaceChar c) with
  | [] => none
  | c :: rest =>
    if c = '-' then
      if firstIsDigit rest then
        if long_min ≤ -(parseDigitsAcc rest 0 : Int) then
          some (-(parseDigitsAcc rest 0 : Int))
        else none
      else none
    else if c = '+' then
      if firstIsDigit rest then
        if (parseDigitsAcc rest 0 : Int) ≤ long_max then
          some ((parseDigitsAcc rest 0 : Int))
        else none
      else none
    else
      if firstIsDigit (c :: rest) then
        if (parseDigitsAcc (c :: rest) 0 : Int) ≤ long_max then
          some ((parseDigitsAcc (c :: rest) 0 : Int))
        else none
      else none

/-- The character of a decimal digit. -/
def digitChar (d : Nat) : Char := Char.ofNat (48 + d)

/-- Fuel-driven production of the decimal digits of `n`, most significant
first, in front of `acc`.  The fuel is only there to make the recursion
structural; any fuel at least `n` gives the digits of `n`. -/
def natDigsAux : Nat → Nat → List Char → List Char
  | 0, _, acc => acc
  | fuel+1, n, acc =>
    if n = 0 then acc else natDigsAux fuel (n / 10) (digitChar (n % 10) :: acc)

/-- Decimal digit characters of a natural number. -/
def natChars (n : Nat) : List Char :=
  if n = 0 then ['0'] else natDigsAux n n []

/-- Model of `std::to_string` on a signed integer. -/
def to_string (i : Int) : String :=
  if i < 0 then ⟨'-' :: natChars i.natAbs⟩ else ⟨natChars i.natAbs⟩

/-! ### The printer (part_001)

`std::ostream &print(std::ostream &out, const object &obj)`: an atom
prints as its payload; a list prints as the operator, `(`, each child
followed by a comma, then a backspace character (`"\b)"`, modelled as
`"\x08)"`) and the closing parenthesis. -/

mutual
/-- The external textual form produced by `print` of part_001. -/
def printO : object → String
  | .atom a => a
  | .list op cs => op ++ "(" ++ printList cs ++ "\x08)"
/-- The loop `for (const auto &obj : *li) print(out, obj) << ",";`. -/
def printList : List object → String
  | [] => ""
  | c :: cs => printO c ++ "," ++ printList cs
end

/-! ### The builtin table and emitted instructions (part_000) -/

/-- The native call targets whose machine addresses `compile` embeds into
`mov rax, imm64`: the three table builtins plus the hidden
`do_push_imm` proxy. -/
inductive callTarget where
  | op_add
  | op_mul
  | op_print
  | do_push_imm
deriving DecidableEq, Repr

/-- `static const std::map<std::string, uintptr_t> builtins`: the lookup
performed by `builtins.find(...)`; absent keys give `none`
(`builtins.end()`). -/
def builtins : String → Option callTarget
  | "+" => some .op_add
  | "*" => some .op_mul
  | "print" => some .op_print
  | _ => none

/-- The x64 instructions emitted by `compile` of part_000, one
constructor per opcode string constant (`call_rax = "\xff\xd0"` and so
on); the `imm64` operand of `mov rax` is abstracted to the call target it
addresses, the `imm32` operand of `mov rdx` is the immediate index. -/
inductive instr where
  | call_rax
  | push_rdi
  | pop_rdi
  | push_rsi
  | pop_rsi
  | mov_rax_imm64 (target : callTarget)
  | mov_rdx_imm32 (idx : Nat)
  | sub_rsp_8
  | add_rsp_8
  | ret
deriving DecidableEq, Repr

/-- Compile-time failures of part_000 (`throw std::runtime_error`):
`"compile: Unknown function."` and `"compile: Too many immediates."`. -/
inductive compileErr where
  | unknownFunction
  | tooManyImmediates
deriving DecidableEq, Repr

/-- `std::numeric_limits<uint32_t>::max()`. -/
def u32max : Nat := 4294967295

/-- An executable region: the emitted instruction stream plus the owned
immediates table (`class native_function`). -/
structure native_function where
  code : List instr
  immediates : List object
deriving DecidableEq, Repr

/-- The call sequence emitted when a frame completes: save the entry
registers, load the builtin address, indirect call, restore. -/
def callSeq (t : callTarget) : List instr :=
  [.push_rdi, .push_rsi, .mov_rax_imm64 t, .call_rax, .pop_rsi, .pop_rdi]

/-- The sequence emitted for a literal: save registers, set the immediate
index in `rdx`, load `&do_push_imm`, call, restore. -/
def pushImmSeq (idx : Nat) : List instr :=
  [.push_rdi, .push_rsi, .mov_rdx_imm32 idx, .mov_rax_imm64 .do_push_imm,
   .call_rax, .pop_rsi, .pop_rdi]

/-- The literal branch of the compile loop: guard the immediates bound
(`immediates.size() == std::numeric_limits<uint32_t>::max()`), append the
object to the table, and emit its `pushImmSeq` with the index
`(uint32_t)immediates.size()-1`, the position just appended to. -/
def compileLit (imms : List object) (o : object) :
    Except compileErr (List instr × List object) :=
  if imms.length = u32max then .error .tooManyImmediates
  else .ok (pushImmSeq imms.length, imms ++ [o])

mutual
/-- Processing of one child object in the compile loop of part_000: a
list with a non-empty operator opens a new frame, whose children are
compiled left to right before its operator is resolved in the builtin
table (failing with `"compile: Unknown function."` if absent) and its
call sequence emitted; anything else — an atom or an operator-less
list — is an inert literal. -/
def compileObj (imms : List object) : object → Except compileErr (List instr × List object)
  | .atom s => compileLit imms (.atom s)
  | .list op cs =>
    if op = "" then compileLit imms (.list op cs)
    else do
      let (body, imms₁) ← compileChildren imms cs
      match builtins op with
      | none => .error .unknownFunction
      | some t => .ok (body ++ callSeq t, imms₁)

/-- The cursor walk over a frame's children, threading the immediates
table. -/
def compileChildren (imms : List object) : List object → Except compileErr (List instr × List object)
  | [] => .ok ([], imms)
  | c :: cs => do
    let (code₁, imms₁) ← compileObj imms c
    let (code₂, imms₂) ← compileChildren imms₁ cs
    .ok (code₁ ++ code₂, imms₂)
end

/-- Processing of a full frame (children, then operator resolution and
call emission); `compileObj` on a list with a non-empty operator agrees
with this definitionally, and the root frame of `compile` goes through it
whatever its operator is. -/
def compileList (imms : List object) (op : String) (cs : List object) :
    Except compileErr (List instr × List object) := do
  let (body, imms₁) ← compileChildren imms cs
  match builtins op with
  | none => .error .unknownFunction
  | some t => .ok (body ++ callSeq t, imms₁)

/-- `native_function compile(const list &root)` of part_000: prologue
`push rsi`, the frame loop started on the root list (whose operator is
resolved like any other frame's), epilogue `pop rsi; ret`.  The root list
is passed as its operator head and child vector. -/
def compile (rootOp : String) (rootChildren : List object) :
    Except compileErr native_function := do
  let (body, imms) ← compileList [] rootOp rootChildren
  .ok ⟨.push_rsi :: (body ++ [.pop_rsi, .ret]), imms⟩

instance {ε α : Type} [DecidableEq ε] [DecidableEq α] : DecidableEq (Except ε α) := fun a b =>
  match a, b with
  | .ok x, .ok y => decidable_of_iff (x = y) (by simp)
  | .error x, .error y => decidable_of_iff (x = y) (by simp)
  | .ok _, .error _ => isFalse (by simp)
  | .error _, .ok _ => isFalse (by simp)

/-! ### Runtime semantics of an emitted region

The interpreter over the abstract instruction stream.  Faults model
runtime conditions the C++ builtins cannot survive: thrown
`std::invalid_argument` or `std::out_of_range` from `std::stol`
(`parseFailure`) and the undefined behaviours — popping an empty or
too-short evaluation stack (`stackUnderflow`), dereferencing the null
result of `std::get_if<atom>` on a list (`notAnAtom`), signed overflow
of the `long` addition or multiplication inside `op_add`/`op_mul`
(`signedOverflow`), the unchecked `m_immediates[idx]` access out of
range (`oobImmediate`), and calling or indexing through a register the
emitted code never set (`noCallTarget`, `noCallIndex`). -/

inductive fault where
  | noCallTarget
  | noCallIndex
  | oobImmediate
  | stackUnderflow
  | notAnAtom
  | parseFailure
  | signedOverflow
deriving DecidableEq, Repr

/-- Machine state visible to the builtins: the host evaluation stack
(top first; the C++ vector's `back()` is the head here), the `rdx` and
`rax` registers as far as the emitted code uses them, and the text
written to `std::cout`. -/
structure runState where
  stack : List object
  rdx : Option Nat
  rax : Option callTarget
  output : String
deriving DecidableEq, Repr

/-- Reading one `+`/`*` operand: `std::stol(*std::get_if<atom>(&*--it))`.
A list operand dereferences the null `get_if` result; an atom with no
digits or with a value outside `long` makes `stol` throw. -/
def readIntTop : object → Except fault Int
  | .atom s =>
    match stol s with
    | some n => .ok n
    | none => .error .parseFailure
  | .list _ _ => .error .notAnAtom

/-- `static void op_add(std::vector<object> *stack)`: read the top two
elements as longs (top first), pop once, and overwrite the new top with
the decimal sum.  The source adds two machine longs, so a sum outside
`long` is signed overflow — undefined behaviour, modelled (like the
other undefined behaviours) as a fault.  Net effect on a long enough
stack of in-range operands with an in-range sum:
`a :: b :: rest ↦ (a+b) :: rest`. -/
def op_add (s : List object) : Except fault (List object) :=
  match s with
  | a :: rest => do
    let x ← readIntTop a
    match rest with
    | b :: rest₁ => do
      let y ← readIntTop b
      if inLongRange (x + y) then .ok (.atom (to_string (x + y)) :: rest₁)
      else .error .signedOverflow
    | [] => .error .stackUnderflow
  | [] => .error .stackUnderflow

/-- `static void op_mul`: as `op_add`, multiplicative (a product outside
`long` is likewise signed overflow). -/
def op_mul (s : List object) : Except fault (List object) :=
  match s with
  | a :: rest => do
    let x ← readIntTop a
    match rest with
    | b :: rest₁ => do
      let y ← readIntTop b
      if inLongRange (x * y) then .ok (.atom (to_string (x * y)) :: rest₁)
      else .error .signedOverflow
    | [] => .error .stackUnderflow
  | [] => .error .stackUnderflow

/-- One indirect call: dispatch on the target address loaded in `rax`.
`op_print` is `print(std::cout, stack->back()) << std::endl` — it writes
the textual form of the top element and a newline and leaves the stack
alone; `do_push_imm` is
`stack->push_back(fn->immediate(idx))` with `idx` taken from `rdx`,
where `immediate` performs the unchecked `m_immediates[idx]`. -/
def applyTarget (imms : List object) (t : callTarget) (s : runState) :
    Except fault runState :=
  match t with
  | .op_add => (op_add s.stack).map fun st => { s with stack := st }
  | .op_mul => (op_mul s.stack).map fun st => { s with stack := st }
  | .op_print =>
    match s.stack with
    | x :: _ => .ok { s with output := s.output ++ printO x ++ "\n" }
    | [] => .error .stackUnderflow
  | .do_push_imm =>
    match s.rdx with
    | none => .error .noCallIndex
    | some i =>
      match imms[i]? with
      | some v => .ok { s with stack := v :: s.stack }
      | none => .error .oobImmediate

/-- Effect of a single instruction.  The register pushes, pops and `rsp`
adjustments only move the machine stack (treated separately by the
alignment model) and `ret` transfers control; none of them touch the
evaluation stack, `rdx`, `rax` or the output. -/
def execInstr (imms : List object) (s : runState) : instr → Except fault runState
  | .call_rax =>
    match s.rax with
    | none => .error .noCallTarget
    | some t => applyTarget imms t s
  | .mov_rax_imm64 t => .ok { s with rax := some t }
  | .mov_rdx_imm32 i => .ok { s with rdx := some i }
  | .push_rdi => .ok s
  | .pop_rdi => .ok s
  | .push_rsi => .ok s
  | .pop_rsi => .ok s
  | .sub_rsp_8 => .ok s
  | .add_rsp_8 => .ok s
  | .ret => .ok s

/-- Straight-line execution of an instruction stream. -/
def exec (imms : List object) : List instr → runState → Except fault runState
  | [], s => .ok s
  | i :: rest, s => do
    let s₁ ← execInstr imms s i
    exec imms rest s₁

/-- The machine state at region entry: `std::vector<object> stack;` — a
fresh empty evaluation stack, uninitialised scratch registers, nothing
printed yet. -/
def initState : runState := ⟨[], none, none, ""⟩

/-- The execution a call of the region performs. -/
def native_function.run (fn : native_function) : Except fault runState :=
  exec fn.immediates fn.code initState

/-- `void native_function::operator()()`: build an empty evaluation
stack, jump into the region, and return — the final stack is a local
destroyed on exit, never inspected and never returned. -/
def native_function.call (fn : native_function) : Except fault Unit :=
  (fn.run).map fun _ => ()

/-- Compile a root list and observe the evaluation stack left by running
the region (the composition the end-to-end claims are about). -/
def compileAndRun (op : String) (cs : List object) :
    Except compileErr (Except fault (List object)) :=
  (compile op cs).map fun fn => (fn.run).map runState.stack

/-! ### Denotation and well-formedness

Specification-side definitions used to state the functional claims: the
value a tree should evaluate to, mirroring the builtin semantics, and
the section 3 tree invariants. -/

/-- The integer reading of an evaluated operand, as `op_add`/`op_mul`
perform it. -/
def stolObj : object → Option Int
  | .atom s => stol s
  | .list _ _ => none

/-- Effect of one builtin on its fully evaluated argument vector (the
arguments in source order; `op_add` reads the second-pushed one first).
The arithmetic operators are only defined where the machine `long`
addition or multiplication of the source does not overflow. -/
def applyOp : callTarget → List object → Option object
  | .op_add, [v₁, v₂] => do
    let x ← stolObj v₂
    let y ← stolObj v₁
    if inLongRange (x + y) then some (.atom (to_string (x + y))) else none
  | .op_mul, [v₁, v₂] => do
    let x ← stolObj v₂
    let y ← stolObj v₁
    if inLongRange (x * y) then some (.atom (to_string (x * y))) else none
  | .op_print, [v] => some v
  | _, _ => none

mutual
/-- The program's result: atoms and operator-less lists denote
themselves, a headed list denotes its builtin applied to the denotations
of its children. -/
def evalObj : object → Option object
  | .atom s => some (.atom s)
  | .list op cs =>
    if op = "" then some (.list op cs)
    else
      match builtins op with
      | none => none
      | some t => do
        let vs ← evalList cs
        applyOp t vs
/-- Denotations of a child vector, left to right. -/
def evalList : List object → Option (List object)
  | [] => some []
  | c :: cs => do
    let v ← evalObj c
    let vs ← evalList cs
    some (v :: vs)
end

mutual
/-- The literal leaves of a tree in traversal order: exactly the objects
`compile` appends to the immediates table. -/
def lits : object → List object
  | .atom s => [.atom s]
  | .list op cs => if op = "" then [.list op cs] else litsList cs
/-- Literal leaves of a child vector. -/
def litsList : List object → List object
  | [] => []
  | c :: cs => lits c ++ litsList cs
end

mutual
/-- Whether the tree contains a frame the compiler will resolve whose
operator is absent from the builtin table.  Operator-less lists are
literals: their operator is never resolved and their children are never
visited. -/
def containsBadOp : object → Bool
  | .atom _ => false
  | .list op cs =>
    if op = "" then false
    else (builtins op).isNone || anyBadOp cs
/-- Any child (recursively) with an unresolvable operator. -/
def anyBadOp : List object → Bool
  | [] => false
  | c :: cs => containsBadOp c || anyBadOp cs
end

/-- Declared arity of each builtin, from the specification's Built-in
Table (section 4.3): `+` and `*` pop two operands, `print` touches one.
These match the stack effect of `op_add`, `op_mul` and `op_print`; the
hidden `do_push_imm` consumes no operand. -/
def arity : callTarget → Nat
  | .op_add => 2
  | .op_mul => 2
  | .op_print => 1
  | .do_push_imm => 0

/-- Which builtins read their operands as integers. -/
def needsInts : callTarget → Bool
  | .op_add => true
  | .op_mul => true
  | .op_print => false
  | .do_push_imm => false

mutual
/-- Whether a tree's value is an atom that `std::stol` accepts — the
section 3 requirement on atoms used as numeric literals, extended
through `print` (which passes its operand through) and the arithmetic
builtins (whose results are always numeric). -/
def resultNumeric : object → Bool
  | .atom s => (stol s).isSome
  | .list op cs =>
    if op = "" then false
    else if op = "print" then resultNumericOne cs
    else (op == "+") || (op == "*")
/-- The single operand a well-formed `print` passes through. -/
def resultNumericOne : List object → Bool
  | [c] => resultNumeric c
  | _ => false
end

/-- Conjunction of `resultNumeric` over a child vector. -/
def allNumeric : List object → Bool
  | [] => true
  | c :: cs => resultNumeric c && allNumeric cs

mutual
/-- The section 3 tree invariants, below the root: every list with a
non-empty operator names a builtin of matching arity, its children
satisfy the same, and operands of the integer builtins are numeric. -/
def wfB : object → Bool
  | .atom _ => true
  | .list op cs =>
    if op = "" then true
    else
      match builtins op with
      | none => false
      | some t =>
        (cs.length == arity t) && wfList cs && (!needsInts t || allNumeric cs)
/-- `wfB` over a child vector. -/
def wfList : List object → Bool
  | [] => true
  | c :: cs => wfB c && wfList cs
end

/-- The section 3 invariants for a whole program: the root is a list
whose operator is in the builtin table, and the tree below it is
well-formed. -/
def wfRoot (op : String) (cs : List object) : Bool :=
  (builtins op).isSome && wfB (.list op cs)

/-! ### Decimal round trip

`std::stol` recovers the integer `std::to_string` printed: the glue that
lets an arithmetic result feed the next arithmetic builtin. -/

/-- Reference spelling of the decimal digits of a natural number, most
significant first (proof-side companion of `natDigsAux`). -/
def bigDigits (n : Nat) : List Char :=
  if n < 10 then [digitChar n]
  else bigDigits (n / 10) ++ [digitChar (n % 10)]
decreasing_by exact Nat.div_lt_self (by omega) (by omega)

theorem digitChar_toNat (d : Nat) (h : d < 10) : (digitChar d).toNat = 48 + d := by
  interval_cases d <;> decide

theorem digitVal_digitChar (d : Nat) (h : d < 10) : digitVal (digitChar d) = some d := by
  interval_cases d <;> decide

theorem isSpaceChar_digitChar (d : Nat) (h : d < 10) : isSpaceChar (digitChar d) = false := by
  interval_cases d <;> decide

theorem digitChar_ne_minus (d : Nat) (h : d < 10) : digitChar d ≠ '-' := by
  interval_cases d <;> decide

theorem digitChar_ne_plus (d : Nat) (h : d < 10) : digitChar d ≠ '+' := by
  interval_cases d <;> decide

/-- `natDigsAux` with enough fuel produces the reference digits. -/
theorem natDigsAux_eq : ∀ (fuel n : Nat) (acc : List Char), 1 ≤ n → n ≤ fuel →
    natDigsAux fuel n acc = bigDigits n ++ acc := by
  intro fuel
  induction fuel with
  | zero => intro n acc h1 h2; omega
  | succ f ih =>
    intro n acc h1 h2
    rw [natDigsAux, if_neg (by omega)]
    by_cases h10 : n < 10
    · have hdiv : n / 10 = 0 := Nat.div_eq_of_lt h10
      rw [hdiv]
      have : ∀ a : List Char, natDigsAux f 0 a = a := by
        intro a; cases f <;> simp [natDigsAux]
      rw [this, bigDigits, if_pos h10, Nat.mod_eq_of_lt h10]
      rfl
    · have hdiv1 : 1 ≤ n / 10 := Nat.le_div_iff_mul_le (by omega) |>.mpr (by omega)
      have hdivf : n / 10 ≤ f := by
        have := Nat.div_lt_self (by omega : 0 < n) (by omega : 1 < 10)
        omega
      have hbig : bigDigits n = bigDigits (n / 10) ++ [digitChar (n % 10)] := by
        rw [bigDigits]; exact if_neg h10
      rw [ih (n / 10) _ hdiv1 hdivf, hbig, List.append_assoc]
      rfl

/-- Digits of `n` followed by anything parse back to `n` (shifting the
accumulator by the digit count). -/
theorem parse_bigDigits : ∀ (n : Nat) (rest : List Char) (a : Nat),
    ∃ L, parseDigitsAcc (bigDigits n ++ rest) a = parseDigitsAcc rest (a * 10 ^ L + n) := by
  intro n
  induction n using Nat.strong_induction_on with
  | _ n ih =>
    intro rest a
    by_cases h10 : n < 10
    · refine ⟨1, ?_⟩
      rw [bigDigits, if_pos h10]
      simp only [List.cons_append, List.nil_append, parseDigitsAcc,
        digitVal_digitChar n h10]
      norm_num
    · obtain ⟨L₁, hL₁⟩ := ih (n / 10) (Nat.div_lt_self (by omega) (by omega))
        (digitChar (n % 10) :: rest) a
      refine ⟨L₁ + 1, ?_⟩
      rw [bigDigits, if_neg h10, List.append_assoc, List.singleton_append, hL₁]
      simp only [parseDigitsAcc, digitVal_digitChar (n % 10) (Nat.mod_lt n (by omega))]
      congr 1
      have := Nat.div_add_mod n 10
      ring_nf
      omega

/-- The head of the reference digit list is a digit character. -/
theorem bigDigits_head : ∀ n : Nat, ∃ d rest, bigDigits n = digitChar d :: rest ∧ d < 10 := by
  intro n
  induction n using Nat.strong_induction_on with
  | _ n ih =>
    by_cases h10 : n < 10
    · exact ⟨n, [], by rw [bigDigits, if_pos h10], h10⟩
    · obtain ⟨d, rest, hd, hdlt⟩ := ih (n / 10) (Nat.div_lt_self (by omega) (by omega))
      exact ⟨d, rest ++ [digitChar (n % 10)],
        by rw [bigDigits, if_neg h10, hd]; rfl, hdlt⟩

/-- One unfolding step of `stol` on a string whose first character is
not whitespace. -/
theorem stol_cons (c : Char) (cs : List Char) (h : isSpaceChar c = false) :
    stol ⟨c :: cs⟩ =
      if c = '-' then
        (if firstIsDigit cs then
          (if long_min ≤ -(parseDigitsAcc cs 0 : Int) then
            some (-(parseDigitsAcc cs 0 : Int))
          else none)
         else none)
      else if c = '+' then
        (if firstIsDigit cs then
          (if (parseDigitsAcc cs 0 : Int) ≤ long_max then
            some ((parseDigitsAcc cs 0 : Int))
          else none)
         else none)
      else
        (if firstIsDigit (c :: cs) then
          (if (parseDigitsAcc (c :: cs) 0 : Int) ≤ long_max then
            some ((parseDigitsAcc (c :: cs) 0 : Int))
          else none)
         else none) := by
  simp only [stol, List.dropWhile_cons, h]
  rfl

/-- The digit list of a positive number parses back to it when it fits
a `long`, and raises `out_of_range` (`none`) otherwise. -/
theorem stol_bigDigits (n : Nat) (h1 : 1 ≤ n) :
    stol ⟨bigDigits n⟩ = if (n : Int) ≤ long_max then some (n : Int) else none := by
  obtain ⟨d, rest, hd, hdlt⟩ := bigDigits_head n
  obtain ⟨L, hL⟩ := parse_bigDigits n [] 0
  rw [List.append_nil] at hL
  simp only [parseDigitsAcc, Nat.zero_mul, Nat.zero_add] at hL
  rw [hd, stol_cons _ _ (isSpaceChar_digitChar d hdlt),
    if_neg (digitChar_ne_minus d hdlt), if_neg (digitChar_ne_plus d hdlt),
    if_pos (by simp [firstIsDigit, digitVal_digitChar d hdlt]), ← hd, hL]

theorem natChars_pos (n : Nat) (h1 : 1 ≤ n) : natChars n = bigDigits n := by
  rw [natChars, if_neg (by omega), natDigsAux_eq n n [] h1 le_rfl, List.append_nil]

/-- `std::stol` recovers what `std::to_string` printed when the value
fits a machine `long`, and raises `out_of_range` (`none`) otherwise. -/
theorem stol_to_string (i : Int) :
    stol (to_string i) = if inLongRange i then some i else none := by
  rcases lt_trichotomy i 0 with hneg | hzero | hpos
  · have h1 : 1 ≤ i.natAbs := by omega
    obtain ⟨d, rest, hd, hdlt⟩ := bigDigits_head i.natAbs
    obtain ⟨L, hL⟩ := parse_bigDigits i.natAbs [] 0
    rw [List.append_nil] at hL
    simp only [parseDigitsAcc, Nat.zero_mul, Nat.zero_add] at hL
    rw [to_string, if_pos hneg, natChars_pos _ h1, stol_cons '-' _ (by decide),
      if_pos rfl, if_pos (by rw [hd]; simp [firstIsDigit, digitVal_digitChar d hdlt]),
      hL]
    have habs : -((i.natAbs : Nat) : Int) = i := by omega
    rw [habs]
    by_cases hr : long_min ≤ i
    · rw [if_pos hr, if_pos ?_]
      refine ⟨hr, ?_⟩
      simp only [long_max]
      omega
    · rw [if_neg hr, if_neg ?_]
      intro hcon
      exact hr hcon.1
  · subst hzero; decide
  · have h1 : 1 ≤ i.natAbs := by omega
    rw [to_string, if_neg (by omega), natChars_pos _ h1, stol_bigDigits _ h1]
    have habs : ((i.natAbs : Nat) : Int) = i := by omega
    rw [habs]
    by_cases hr : i ≤ long_max
    · rw [if_pos hr, if_pos ?_]
      refine ⟨?_, hr⟩
      simp only [long_min]
      omega
    · rw [if_neg hr, if_neg ?_]
      intro hcon
      exact hr hcon.2

/-- The in-range half of the roundtrip, in applicable form. -/
theorem stol_to_string_inrange (i : Int) (h : inLongRange i) :
    stol (to_string i) = some i := by
  rw [stol_to_string, if_pos h]

/-! ### Structure of successful compiles

The immediates table a compile produces, the success and failure
characterisations, and the run of the emitted code. -/

theorem bindErrE {ε α β : Type} (e : ε) (f : α → Except ε β) :
    (Except.error e >>= f) = Except.error e := rfl

theorem bindOkE {ε α β : Type} (a : α) (f : α → Except ε β) :
    (Except.ok a >>= f) = f a := rfl

theorem exec_append (imms : List object) (a b : List instr) (s : runState) :
    exec imms (a ++ b) s = (exec imms a s).bind (exec imms b) := by
  induction a generalizing s with
  | nil => simp [exec, Except.bind]
  | cons i rest ih =>
    simp only [List.cons_append, exec]
    cases h : execInstr imms s i with
    | error e => simp [h, bindErrE, Except.bind]
    | ok s₁ => simp [h, bindOkE, Except.bind, ih]

mutual
theorem compileObj_imms : ∀ (t : object) (imms code imms₁ : _),
    compileObj imms t = .ok (code, imms₁) → imms₁ = imms ++ lits t
  | .atom s => by
    intro imms code imms₁ h
    simp only [compileObj, compileLit] at h
    split at h
    · exact Except.noConfusion h
    · simp only [Except.ok.injEq, Prod.mk.injEq] at h
      rw [← h.2, lits]
  | .list op cs => by
    intro imms code imms₁ h
    simp only [compileObj] at h
    split at h
    · next hop =>
      simp only [compileLit] at h
      split at h
      · exact Except.noConfusion h
      · simp only [Except.ok.injEq, Prod.mk.injEq] at h
        rw [← h.2, lits, if_pos hop]
    · next hop =>
      cases hc : compileChildren imms cs with
      | error e => simp only [hc, bindErrE] at h; exact Except.noConfusion h
      | ok p =>
        obtain ⟨body, i₁⟩ := p
        simp only [hc, bindOkE] at h
        cases hb : builtins op with
        | none => simp only [hb] at h; exact Except.noConfusion h
        | some t =>
          simp only [hb, Except.ok.injEq, Prod.mk.injEq] at h
          rw [← h.2, lits, if_neg hop]
          exact compileChildren_imms cs imms body i₁ hc

theorem compileChildren_imms : ∀ (cs : List object) (imms code imms₁ : _),
    compileChildren imms cs = .ok (code, imms₁) → imms₁ = imms ++ litsList cs
  | [] => by
    intro imms code imms₁ h
    simp only [compileChildren, Except.ok.injEq, Prod.mk.injEq] at h
    rw [← h.2, litsList, List.append_nil]
  | c :: cs => by
    intro imms code imms₁ h
    simp only [compileChildren] at h
    cases hc : compileObj imms c with
    | error e => simp only [hc, bindErrE] at h; exact Except.noConfusion h
    | ok p =>
      obtain ⟨c₁, i₁⟩ := p
      simp only [hc, bindOkE] at h
      cases hcs : compileChildren i₁ cs with
      | error e => simp only [hcs, bindErrE] at h; exact Except.noConfusion h
      | ok q =>
        obtain ⟨c₂, i₂⟩ := q
        simp only [hcs, bindOkE, Except.ok.injEq, Prod.mk.injEq] at h
        rw [← h.2, litsList, ← List.append_assoc]
        rw [← compileObj_imms c imms c₁ i₁ hc]
        exact compileChildren_imms cs i₁ c₂ i₂ hcs
end



mutual
theorem compileObj_le : ∀ (t : object) (imms code imms₁ : _),
    compileObj imms t = .ok (code, imms₁) → imms.length ≤ u32max →
    imms₁.length ≤ u32max
  | .atom s => by
    intro imms code imms₁ h hlen
    simp only [compileObj, compileLit] at h
    split at h
    · exact Except.noConfusion h
    · next hne =>
      simp only [Except.ok.injEq, Prod.mk.injEq] at h
      rw [← h.2]
      simp only [List.length_append, List.length_cons, List.length_nil]
      omega
  | .list op cs => by
    intro imms code imms₁ h hlen
    simp only [compileObj] at h
    split at h
    · simp only [compileLit] at h
      split at h
      · exact Except.noConfusion h
      · next hne =>
        simp only [Except.ok.injEq, Prod.mk.injEq] at h
        rw [← h.2]
        simp only [List.length_append, List.length_cons, List.length_nil]
        omega
    · cases hc : compileChildren imms cs with
      | error e => simp only [hc, bindErrE] at h; exact Except.noConfusion h
      | ok p =>
        obtain ⟨body, i₁⟩ := p
        simp only [hc, bindOkE] at h
        cases hb : builtins op with
        | none => simp only [hb] at h; exact Except.noConfusion h
        | some t =>
          simp only [hb, Except.ok.injEq, Prod.mk.injEq] at h
          rw [← h.2]
          exact compileChildren_le cs imms body i₁ hc hlen

theorem compileChildren_le : ∀ (cs : List object) (imms code imms₁ : _),
    compileChildren imms cs = .ok (code, imms₁) → imms.length ≤ u32max →
    imms₁.length ≤ u32max
  | [] => by
    intro imms code imms₁ h hlen
    simp only [compileChildren, Except.ok.injEq, Prod.mk.injEq] at h
    rw [← h.2]; exact hlen
  | c :: cs => by
    intro imms code imms₁ h hlen
    simp only [compileChildren] at h
    cases hc : compileObj imms c with
    | error e => simp only [hc, bindErrE] at h; exact Except.noConfusion h
    | ok p =>
      obtain ⟨c₁, i₁⟩ := p
      simp only [hc, bindOkE] at h
      cases hcs : compileChildren i₁ cs with
      | error e => simp only [hcs, bindErrE] at h; exact Except.noConfusion h
      | ok q =>
        obtain ⟨c₂, i₂⟩ := q
        simp only [hcs, bindOkE, Except.ok.injEq, Prod.mk.injEq] at h
        rw [← h.2]
        exact compileChildren_le cs i₁ c₂ i₂ hcs
          (compileObj_le c imms c₁ i₁ hc hlen)
end

mutual
theorem compileObj_ok : ∀ (t : object) (imms : List object),
    containsBadOp t = false → imms.length + (lits t).length ≤ u32max →
    ∃ code, compileObj imms t = .ok (code, imms ++ lits t)
  | .atom s => by
    intro imms hbad hlen
    simp only [lits, List.length_cons, List.length_nil] at hlen ⊢
    exact ⟨pushImmSeq imms.length, by
      simp only [compileObj, compileLit, if_neg (by omega : ¬imms.length = u32max)]⟩
  | .list op cs => by
    intro imms hbad hlen
    by_cases hop : op = ""
    · simp only [lits, if_pos hop, List.length_cons, List.length_nil] at hlen ⊢
      exact ⟨pushImmSeq imms.length, by
        simp only [compileObj, compileLit, if_pos hop,
          if_neg (by omega : ¬imms.length = u32max)]⟩
    · simp only [containsBadOp, if_neg hop, Bool.or_eq_false_iff] at hbad
      obtain ⟨hnone, hany⟩ := hbad
      cases hb : builtins op with
      | none => rw [hb] at hnone; exact absurd hnone (by simp)
      | some t =>
        simp only [lits, if_neg hop] at hlen ⊢
        obtain ⟨body, hbody⟩ := compileChildren_ok cs imms hany hlen
        refine ⟨body ++ callSeq t, ?_⟩
        simp only [compileObj, if_neg hop, hbody, bindOkE, hb]

theorem compileChildren_ok : ∀ (cs : List object) (imms : List object),
    anyBadOp cs = false → imms.length + (litsList cs).length ≤ u32max →
    ∃ code, compileChildren imms cs = .ok (code, imms ++ litsList cs)
  | [] => by
    intro imms hbad hlen
    exact ⟨[], by simp [compileChildren, litsList]⟩
  | c :: cs => by
    intro imms hbad hlen
    simp only [anyBadOp, Bool.or_eq_false_iff] at hbad
    simp only [litsList, List.length_append] at hlen
    obtain ⟨code₁, h₁⟩ := compileObj_ok c imms hbad.1 (by omega)
    obtain ⟨code₂, h₂⟩ := compileChildren_ok cs (imms ++ lits c) hbad.2
      (by simp only [List.length_append]; omega)
    refine ⟨code₁ ++ code₂, ?_⟩
    simp only [compileChildren, h₁, bindOkE, h₂, bindOkE, litsList,
      List.append_assoc]
end

mutual
theorem compileObj_overflow : ∀ (t : object) (imms : List object),
    containsBadOp t = false → imms.length ≤ u32max →
    u32max < imms.length + (lits t).length →
    compileObj imms t = .error .tooManyImmediates
  | .atom s => by
    intro imms hbad hlen hov
    simp only [lits, List.length_cons, List.length_nil] at hov
    simp only [compileObj, compileLit, if_pos (by omega : imms.length = u32max)]
  | .list op cs => by
    intro imms hbad hlen hov
    by_cases hop : op = ""
    · simp only [lits, if_pos hop, List.length_cons, List.length_nil] at hov
      simp only [compileObj, compileLit, if_pos hop,
        if_pos (by omega : imms.length = u32max)]
    · simp only [containsBadOp, if_neg hop, Bool.or_eq_false_iff] at hbad
      simp only [lits, if_neg hop] at hov
      have hch := compileChildren_overflow cs imms hbad.2 hlen hov
      simp only [compileObj, if_neg hop, hch, bindErrE]

theorem compileChildren_overflow : ∀ (cs : List object) (imms : List object),
    anyBadOp cs = false → imms.length ≤ u32max →
    u32max < imms.length + (litsList cs).length →
    compileChildren imms cs = .error .tooManyImmediates
  | [] => by
    intro imms hbad hlen hov
    simp only [litsList, List.length_nil] at hov
    omega
  | c :: cs => by
    intro imms hbad hlen hov
    simp only [anyBadOp, Bool.or_eq_false_iff] at hbad
    simp only [litsList, List.length_append] at hov
    by_cases hsplit : u32max < imms.length + (lits c).length
    · have h₁ := compileObj_overflow c imms hbad.1 hlen hsplit
      simp only [compileChildren, h₁, bindErrE]
    · obtain ⟨code₁, h₁⟩ := compileObj_ok c imms hbad.1 (by omega)
      have h₂ := compileChildren_overflow cs (imms ++ lits c) hbad.2
        (by simp only [List.length_append]; omega)
        (by simp only [List.length_append]; omega)
      simp only [compileChildren, h₁, bindOkE, h₂, bindErrE]
end

mutual
theorem compileObj_bad : ∀ (t : object) (imms : List object),
    containsBadOp t = true → imms.length + (lits t).length ≤ u32max →
    compileObj imms t = .error .unknownFunction
  | .atom s => by
    intro imms hbad hlen
    simp only [containsBadOp] at hbad
    exact Bool.noConfusion hbad
  | .list op cs => by
    intro imms hbad hlen
    by_cases hop : op = ""
    · rw [containsBadOp, if_pos hop] at hbad
      exact Bool.noConfusion hbad
    · simp only [containsBadOp, if_neg hop] at hbad
      simp only [lits, if_neg hop] at hlen
      by_cases hany : anyBadOp cs = true
      · have hch := compileChildren_bad cs imms hany hlen
        simp only [compileObj, if_neg hop, hch, bindErrE]
      · have hany' : anyBadOp cs = false := by
          cases hq : anyBadOp cs
          · rfl
          · exact absurd hq hany
        have hnone : (builtins op).isNone = true := by
          rcases Bool.or_eq_true_iff.mp hbad with h | h
          · exact h
          · exact absurd h hany
        obtain ⟨body, hbody⟩ := compileChildren_ok cs imms hany' hlen
        cases hb : builtins op with
        | some t => rw [hb] at hnone; exact Bool.noConfusion hnone
        | none =>
          simp only [compileObj, if_neg hop, hbody, bindOkE, hb]

theorem compileChildren_bad : ∀ (cs : List object) (imms : List object),
    anyBadOp cs = true → imms.length + (litsList cs).length ≤ u32max →
    compileChildren imms cs = .error .unknownFunction
  | [] => by
    intro imms hbad hlen
    simp only [anyBadOp] at hbad
    exact Bool.noConfusion hbad
  | c :: cs => by
    intro imms hbad hlen
    simp only [litsList, List.length_append] at hlen
    by_cases hc : containsBadOp c = true
    · have h₁ := compileObj_bad c imms hc (by omega)
      simp only [compileChildren, h₁, bindErrE]
    · have hc' : containsBadOp c = false := by
        cases hq : containsBadOp c
        · rfl
        · exact absurd hq hc
      have hany : anyBadOp cs = true := by
        rcases Bool.or_eq_true_iff.mp (by simpa [anyBadOp] using hbad) with h | h
        · exact absurd h hc
        · exact h
      obtain ⟨code₁, h₁⟩ := compileObj_ok c imms hc' (by omega)
      have h₂ := compileChildren_bad cs (imms ++ lits c) hany
        (by simp only [List.length_append]; omega)
      simp only [compileChildren, h₁, bindOkE, h₂, bindErrE]
end



/-! ### Running the emitted code

What a call of the region computes: the emitted code of a tree pushes
exactly the tree's denotation onto the evaluation stack. -/

theorem bindNoneO {α β : Type} (f : α → Option β) : (none >>= f) = none := rfl

theorem bindSomeO {α β : Type} (a : α) (f : α → Option β) : (some a >>= f) = f a := rfl

theorem applyOp_add_eq (vs : List object) (v : object)
    (h : applyOp .op_add vs = some v) :
    ∃ a₁ a₂ x y, vs = [object.atom a₁, object.atom a₂] ∧ stol a₁ = some y ∧
      stol a₂ = some x ∧ inLongRange (x + y) ∧ v = .atom (to_string (x + y)) := by
  match vs with
  | [] => exact Option.noConfusion h
  | [v₁] => exact Option.noConfusion h
  | v₁ :: v₂ :: v₃ :: rest => exact Option.noConfusion h
  | [v₁, v₂] =>
    cases v₂ with
    | list o c => simp only [applyOp, stolObj, bindNoneO] at h; exact Option.noConfusion h
    | atom a₂ =>
      cases v₁ with
      | list o c =>
        simp only [applyOp, stolObj] at h
        cases hx : stol a₂ with
        | none => rw [hx] at h; exact Option.noConfusion h
        | some x => rw [hx] at h; simp only [bindSomeO, bindNoneO] at h; exact Option.noConfusion h
      | atom a₁ =>
        simp only [applyOp, stolObj] at h
        cases hx : stol a₂ with
        | none => rw [hx] at h; exact Option.noConfusion h
        | some x =>
          rw [hx] at h
          simp only [bindSomeO] at h
          cases hy : stol a₁ with
          | none => rw [hy] at h; exact Option.noConfusion h
          | some y =>
            rw [hy] at h
            simp only [bindSomeO] at h
            split at h
            · next hin =>
              simp only [Option.some.injEq] at h
              exact ⟨a₁, a₂, x, y, rfl, hy, hx, hin, h.symm⟩
            · exact Option.noConfusion h

theorem applyOp_mul_eq (vs : List object) (v : object)
    (h : applyOp .op_mul vs = some v) :
    ∃ a₁ a₂ x y, vs = [object.atom a₁, object.atom a₂] ∧ stol a₁ = some y ∧
      stol a₂ = some x ∧ inLongRange (x * y) ∧ v = .atom (to_string (x * y)) := by
  match vs with
  | [] => exact Option.noConfusion h
  | [v₁] => exact Option.noConfusion h
  | v₁ :: v₂ :: v₃ :: rest => exact Option.noConfusion h
  | [v₁, v₂] =>
    cases v₂ with
    | list o c => simp only [applyOp, stolObj, bindNoneO] at h; exact Option.noConfusion h
    | atom a₂ =>
      cases v₁ with
      | list o c =>
        simp only [applyOp, stolObj] at h
        cases hx : stol a₂ with
        | none => rw [hx] at h; exact Option.noConfusion h
        | some x => rw [hx] at h; simp only [bindSomeO, bindNoneO] at h; exact Option.noConfusion h
      | atom a₁ =>
        simp only [applyOp, stolObj] at h
        cases hx : stol a₂ with
        | none => rw [hx] at h; exact Option.noConfusion h
        | some x =>
          rw [hx] at h
          simp only [bindSomeO] at h
          cases hy : stol a₁ with
          | none => rw [hy] at h; exact Option.noConfusion h
          | some y =>
            rw [hy] at h
            simp only [bindSomeO] at h
            split at h
            · next hin =>
              simp only [Option.some.injEq] at h
              exact ⟨a₁, a₂, x, y, rfl, hy, hx, hin, h.symm⟩
            · exact Option.noConfusion h

theorem applyOp_print_eq (vs : List object) (v : object)
    (h : applyOp .op_print vs = some v) : vs = [v] := by
  match vs with
  | [] => exact Option.noConfusion h
  | [v₁] =>
    simp only [applyOp, Option.some.injEq] at h
    rw [h]
  | v₁ :: v₂ :: rest => exact Option.noConfusion h

theorem applyOp_push_none (vs : List object) : applyOp .do_push_imm vs = none := by
  match vs with
  | [] => rfl
  | [v₁] => rfl
  | v₁ :: v₂ :: rest => rfl

/-- Running the literal sequence pushes the indexed immediate. -/
theorem exec_pushImmSeq (table : List object) (i : Nat) (v : object) (s : runState)
    (h : table[i]? = some v) :
    exec table (pushImmSeq i) s =
      .ok ⟨v :: s.stack, some i, some .do_push_imm, s.output⟩ := by
  simp [pushImmSeq, exec, execInstr, applyTarget, h, bindOkE]

/-- Running the call sequence of a builtin applies its denotational
effect to the operands on top of the stack. -/
theorem exec_callSeq (table : List object) (t : callTarget) (vs : List object) (v : object)
    (stack₀ : List object) (rdx₀ : Option Nat) (rax₀ : Option callTarget) (out₀ : String)
    (happ : applyOp t vs = some v) :
    ∃ out₁, exec table (callSeq t) ⟨vs.reverse ++ stack₀, rdx₀, rax₀, out₀⟩ =
      .ok ⟨v :: stack₀, rdx₀, some t, out₁⟩ := by
  cases t with
  | op_add =>
    obtain ⟨a₁, a₂, x, y, hvs, hy, hx, hin, hv⟩ := applyOp_add_eq vs v happ
    subst hvs hv
    refine ⟨out₀, ?_⟩
    simp [callSeq, exec, execInstr, applyTarget, op_add, readIntTop, hx, hy, hin,
      bindOkE, Except.map]
  | op_mul =>
    obtain ⟨a₁, a₂, x, y, hvs, hy, hx, hin, hv⟩ := applyOp_mul_eq vs v happ
    subst hvs hv
    refine ⟨out₀, ?_⟩
    simp [callSeq, exec, execInstr, applyTarget, op_mul, readIntTop, hx, hy, hin,
      bindOkE, Except.map]
  | op_print =>
    have hvs := applyOp_print_eq vs v happ
    subst hvs
    refine ⟨out₀ ++ printO v ++ "\n", ?_⟩
    simp [callSeq, exec, execInstr, applyTarget, bindOkE]
  | do_push_imm =>
    rw [applyOp_push_none vs] at happ
    exact Option.noConfusion happ

mutual
theorem compileObj_run : ∀ (t : object) (imms : List object) (code : List instr)
    (imms₁ rest : List object) (v : object) (s : runState),
    compileObj imms t = .ok (code, imms₁) →
    evalObj t = some v →
    ∃ rdx₁ rax₁ out₁,
      exec (imms₁ ++ rest) code s = .ok ⟨v :: s.stack, rdx₁, rax₁, out₁⟩
  | .atom a => by
    intro imms code imms₁ rest v s h heval
    simp only [evalObj, Option.some.injEq] at heval
    simp only [compileObj, compileLit] at h
    split at h
    · exact Except.noConfusion h
    · simp only [Except.ok.injEq, Prod.mk.injEq] at h
      obtain ⟨hcode, himms⟩ := h
      refine ⟨some imms.length, some .do_push_imm, s.output, ?_⟩
      rw [← hcode, ← himms, ← heval]
      have hidx : ((imms ++ [object.atom a]) ++ rest)[imms.length]? =
          some (object.atom a) := by
        rw [List.append_assoc, List.getElem?_append_right le_rfl]
        simp
      rw [exec_pushImmSeq ((imms ++ [object.atom a]) ++ rest) imms.length
        (.atom a) s hidx]
  | .list op cs => by
    intro imms code imms₁ rest v s h heval
    by_cases hop : op = ""
    · simp only [evalObj, if_pos hop, Option.some.injEq] at heval
      simp only [compileObj, compileLit, if_pos hop] at h
      split at h
      · exact Except.noConfusion h
      · simp only [Except.ok.injEq, Prod.mk.injEq] at h
        obtain ⟨hcode, himms⟩ := h
        refine ⟨some imms.length, some .do_push_imm, s.output, ?_⟩
        rw [← hcode, ← himms, ← heval]
        have hidx : ((imms ++ [object.list op cs]) ++ rest)[imms.length]? =
            some (object.list op cs) := by
          rw [List.append_assoc, List.getElem?_append_right le_rfl]
          simp
        rw [exec_pushImmSeq ((imms ++ [object.list op cs]) ++ rest) imms.length
          (.list op cs) s hidx]
    · simp only [compileObj, if_neg hop] at h
      simp only [evalObj, if_neg hop] at heval
      cases hb : builtins op with
      | none => rw [hb] at heval; exact Option.noConfusion heval
      | some t =>
        rw [hb] at heval
        cases hvs : evalList cs with
        | none => rw [hvs] at heval; exact Option.noConfusion heval
        | some vs =>
          rw [hvs] at heval
          simp only [bindSomeO] at heval
          cases hc : compileChildren imms cs with
          | error e => simp only [hc, bindErrE] at h; exact Except.noConfusion h
          | ok p =>
            obtain ⟨body, i₁⟩ := p
            simp only [hc, bindOkE, hb, Except.ok.injEq, Prod.mk.injEq] at h
            obtain ⟨hcode, himms⟩ := h
            obtain ⟨rdx₁, rax₁, out₁, hbody⟩ :=
              compileChildren_run cs imms body i₁ rest vs s hc hvs
            rw [← hcode, ← himms]
            rw [exec_append]
            rw [hbody]
            simp only [Except.bind]
            obtain ⟨out₂, hcall⟩ := exec_callSeq (i₁ ++ rest) t vs v
              s.stack rdx₁ rax₁ out₁ heval
            rw [hcall]
            exact ⟨rdx₁, some t, out₂, rfl⟩

theorem compileChildren_run : ∀ (cs : List object) (imms : List object) (code : List instr)
    (imms₁ rest : List object) (vs : List object) (s : runState),
    compileChildren imms cs = .ok (code, imms₁) →
    evalList cs = some vs →
    ∃ rdx₁ rax₁ out₁,
      exec (imms₁ ++ rest) code s = .ok ⟨vs.reverse ++ s.stack, rdx₁, rax₁, out₁⟩
  | [] => by
    intro imms code imms₁ rest vs s h heval
    simp only [evalList, Option.some.injEq] at heval
    simp only [compileChildren, Except.ok.injEq, Prod.mk.injEq] at h
    obtain ⟨hcode, himms⟩ := h
    rw [← hcode, ← heval]
    exact ⟨s.rdx, s.rax, s.output, rfl⟩
  | c :: cs => by
    intro imms code imms₁ rest vs s h heval
    simp only [evalList] at heval
    cases hv : evalObj c with
    | none => rw [hv] at heval; exact Option.noConfusion heval
    | some v =>
      rw [hv] at heval
      simp only [bindSomeO] at heval
      cases hvs : evalList cs with
      | none => rw [hvs] at heval; exact Option.noConfusion heval
      | some vs₁ =>
        rw [hvs] at heval
        simp only [bindSomeO, Option.some.injEq] at heval
        simp only [compileChildren] at h
        cases hc : compileObj imms c with
        | error e => simp only [hc, bindErrE] at h; exact Except.noConfusion h
        | ok p =>
          obtain ⟨c₁, i₁⟩ := p
          simp only [hc, bindOkE] at h
          cases hcs : compileChildren i₁ cs with
          | error e => simp only [hcs, bindErrE] at h; exact Except.noConfusion h
          | ok q =>
            obtain ⟨c₂, i₂⟩ := q
            simp only [hcs, bindOkE, Except.ok.injEq, Prod.mk.injEq] at h
            obtain ⟨hcode, himms⟩ := h
            have htable : imms₁ ++ rest = i₁ ++ (litsList cs ++ rest) := by
              rw [← himms, compileChildren_imms cs i₁ c₂ i₂ hcs, List.append_assoc]
            obtain ⟨rdx₁, rax₁, out₁, h₁⟩ :=
              compileObj_run c imms c₁ i₁ (litsList cs ++ rest) v s hc hv
            obtain ⟨rdx₂, rax₂, out₂, h₂⟩ :=
              compileChildren_run cs i₁ c₂ i₂ rest vs₁
                ⟨v :: s.stack, rdx₁, rax₁, out₁⟩ hcs hvs
            rw [← htable] at h₁
            rw [himms] at h₂
            refine ⟨rdx₂, rax₂, out₂, ?_⟩
            rw [← hcode, exec_append, h₁]
            simp only [Except.bind]
            rw [h₂, ← heval]
            simp [List.reverse_cons, List.append_assoc]
end



/-! ### Shape lemmas for the builtin table and the denotation -/

theorem builtins_eq (op : String) (t : callTarget) (h : builtins op = some t) :
    (op = "+" ∧ t = .op_add) ∨ (op = "*" ∧ t = .op_mul) ∨
      (op = "print" ∧ t = .op_print) := by
  unfold builtins at h
  split at h
  · exact Or.inl ⟨rfl, (Option.some.injEq .. ▸ h).symm⟩
  · exact Or.inr (Or.inl ⟨rfl, (Option.some.injEq .. ▸ h).symm⟩)
  · exact Or.inr (Or.inr ⟨rfl, (Option.some.injEq .. ▸ h).symm⟩)
  · exact Option.noConfusion h

theorem builtins_ne_empty (op : String) (t : callTarget) (h : builtins op = some t) :
    op ≠ "" := by
  rcases builtins_eq op t h with ⟨h1, _⟩ | ⟨h1, _⟩ | ⟨h1, _⟩ <;> (subst h1; decide)

theorem evalList_cons_shape (c : object) (cs : List object) (vs : List object)
    (h : evalList (c :: cs) = some vs) :
    ∃ w ws, evalObj c = some w ∧ evalList cs = some ws ∧ vs = w :: ws := by
  simp only [evalList] at h
  cases hv : evalObj c with
  | none => rw [hv] at h; exact Option.noConfusion h
  | some w =>
    rw [hv] at h
    simp only [bindSomeO] at h
    cases hws : evalList cs with
    | none => rw [hws] at h; exact Option.noConfusion h
    | some ws =>
      rw [hws] at h
      simp only [bindSomeO, Option.some.injEq] at h
      exact ⟨w, ws, rfl, rfl, h.symm⟩

theorem evalObj_list_shape (op : String) (cs : List object) (v : object)
    (hop : op ≠ "") (h : evalObj (.list op cs) = some v) :
    ∃ t vs, builtins op = some t ∧ evalList cs = some vs ∧ applyOp t vs = some v := by
  simp only [evalObj, if_neg hop] at h
  cases hb : builtins op with
  | none => rw [hb] at h; exact Option.noConfusion h
  | some t =>
    rw [hb] at h
    cases hvs : evalList cs with
    | none => rw [hvs] at h; exact Option.noConfusion h
    | some vs =>
      rw [hvs] at h
      simp only [bindSomeO] at h
      exact ⟨t, vs, rfl, rfl, h⟩


/-! ### From evaluation to compilation and back: top-level glue -/

mutual
theorem evalObj_no_bad : ∀ (t : object) (v : object), evalObj t = some v →
    containsBadOp t = false
  | .atom s => fun v _ => rfl
  | .list op cs => by
    intro v h
    by_cases hop : op = ""
    · rw [containsBadOp, if_pos hop]
    · obtain ⟨t, vs, hb, hvs, _⟩ := evalObj_list_shape op cs v hop h
      rw [containsBadOp, if_neg hop, hb]
      simp only [Option.isNone_some, Bool.false_or]
      exact evalList_no_bad cs vs hvs

theorem evalList_no_bad : ∀ (cs : List object) (vs : List object),
    evalList cs = some vs → anyBadOp cs = false
  | [] => fun vs _ => rfl
  | c :: cs => by
    intro vs h
    obtain ⟨w, ws, hw, hws, _⟩ := evalList_cons_shape c cs vs h
    rw [anyBadOp, evalObj_no_bad c w hw, evalList_no_bad cs ws hws]
    rfl
end

theorem compileObj_ne_empty (imms : List object) (op : String) (cs : List object)
    (hop : op ≠ "") :
    compileObj imms (.list op cs) = compileList imms op cs := by
  rw [compileObj, if_neg hop]
  rfl

/-- Decomposition of a successful `compile`. -/
theorem compile_shape (op : String) (cs : List object) (fn : native_function)
    (h : compile op cs = .ok fn) :
    ∃ body t, builtins op = some t ∧
      compileChildren [] cs = .ok (body, fn.immediates) ∧
      fn.code = .push_rsi :: ((body ++ callSeq t) ++ [.pop_rsi, .ret]) := by
  rw [compile] at h
  cases hcl : compileList [] op cs with
  | error e => rw [hcl] at h; simp only [bindErrE] at h; exact Except.noConfusion h
  | ok p =>
    obtain ⟨body₁, imms⟩ := p
    rw [hcl] at h
    simp only [bindOkE, Except.ok.injEq] at h
    rw [compileList] at hcl
    cases hcc : compileChildren [] cs with
    | error e => rw [hcc] at hcl; simp only [bindErrE] at hcl; exact Except.noConfusion hcl
    | ok q =>
      obtain ⟨body, imms₀⟩ := q
      rw [hcc] at hcl
      simp only [bindOkE] at hcl
      cases hb : builtins op with
      | none => rw [hb] at hcl; exact Except.noConfusion hcl
      | some t =>
        rw [hb] at hcl
        simp only [Except.ok.injEq, Prod.mk.injEq] at hcl
        obtain ⟨hbody, himms⟩ := hcl
        subst h
        refine ⟨body, t, ?_, ?_, ?_⟩
        · rfl
        · rw [← himms]
        · rw [← hbody]
  

/-- End-to-end: a well-formed tree compiles and its region, run on the
empty evaluation stack, terminates with exactly its denotation on the
stack. -/
theorem wf_run_helper : ∀ (op : String) (cs : List object) (v : object),
    wfRoot op cs = true → (litsList cs).length ≤ u32max →
    evalObj (.list op cs) = some v →
    compileAndRun op cs = .ok (.ok [v]) := by
  intro op cs v hwf hlen heval
  rw [wfRoot, Bool.and_eq_true, Option.isSome_iff_exists] at hwf
  obtain ⟨⟨t, hb⟩, hwfB⟩ := hwf
  have hop : op ≠ "" := builtins_ne_empty op t hb
  have hbad : containsBadOp (.list op cs) = false := evalObj_no_bad _ v heval
  have hlits : lits (.list op cs) = litsList cs := by rw [lits, if_neg hop]
  obtain ⟨code, hcode⟩ := compileObj_ok (.list op cs) [] hbad
    (by rw [hlits]; simpa using hlen)
  obtain ⟨rdx₁, rax₁, out₁, hrun⟩ := compileObj_run (.list op cs) [] code
    ([] ++ lits (.list op cs)) [] v initState hcode heval
  rw [List.append_nil] at hrun
  have hcl : compileList [] op cs = .ok (code, [] ++ lits (.list op cs)) := by
    rw [← compileObj_ne_empty [] op cs hop]; exact hcode
  have hcomp : compile op cs =
      .ok ⟨.push_rsi :: (code ++ [.pop_rsi, .ret]), [] ++ lits (.list op cs)⟩ := by
    rw [compile, hcl, bindOkE]
  rw [compileAndRun, hcomp]
  simp only [Except.map, native_function.run]
  rw [show exec ([] ++ lits (.list op cs))
      (instr.push_rsi :: (code ++ [instr.pop_rsi, instr.ret])) initState =
      exec ([] ++ lits (.list op cs)) (code ++ [instr.pop_rsi, instr.ret]) initState
    from rfl]
  rw [exec_append, hrun]
  simp only [Except.bind, exec, execInstr, bindOkE]
  rfl



/-! ### The machine-stack model

Effect of each emitted instruction on `RSP`.  A `call` itself is net
zero at this level: the pushed return address is popped by the callee's
own `ret`, and the builtins are ABI-conforming C functions that restore
`RSP`.  The ABI requires `RSP ≡ 0 (mod 16)` at the moment a `call`
executes; the region itself is entered by a `call`, so on entry
`RSP ≡ 8 (mod 16)`. -/

def rspDelta : instr → Int
  | .push_rdi => -8
  | .push_rsi => -8
  | .pop_rdi => 8
  | .pop_rsi => 8
  | .sub_rsp_8 => -8
  | .add_rsp_8 => 8
  | .call_rax => 0
  | .mov_rax_imm64 _ => 0
  | .mov_rdx_imm32 _ => 0
  | .ret => 0

/-- Net `RSP` movement of a straight-line instruction sequence. -/
def sumDelta (code : List instr) : Int := (code.map rspDelta).sum

/-- Whether every `call` in `code` executes with `RSP ≡ 0 (mod 16)`,
given the value of `RSP` when `code` starts. -/
def callsAlignedB : Int → List instr → Bool
  | _, [] => true
  | rsp, i :: rest =>
    ((i != .call_rax) || (rsp % 16 == 0)) && callsAlignedB (rsp + rspDelta i) rest

theorem sumDelta_nil : sumDelta [] = 0 := rfl

theorem sumDelta_cons (i : instr) (rest : List instr) :
    sumDelta (i :: rest) = rspDelta i + sumDelta rest := by
  simp [sumDelta]

theorem sumDelta_append (a b : List instr) :
    sumDelta (a ++ b) = sumDelta a + sumDelta b := by
  simp [sumDelta]

theorem callsAlignedB_append (a b : List instr) (rsp : Int) :
    callsAlignedB rsp (a ++ b) =
      (callsAlignedB rsp a && callsAlignedB (rsp + sumDelta a) b) := by
  induction a generalizing rsp with
  | nil => simp [callsAlignedB, sumDelta_nil]
  | cons i rest ih =>
    rw [List.cons_append]
    rw [show callsAlignedB rsp (i :: (rest ++ b)) =
      ((i != .call_rax || rsp % 16 == 0) && callsAlignedB (rsp + rspDelta i) (rest ++ b))
      from rfl]
    rw [ih]
    rw [show callsAlignedB rsp (i :: rest) =
      ((i != .call_rax || rsp % 16 == 0) && callsAlignedB (rsp + rspDelta i) rest)
      from rfl]
    rw [sumDelta_cons, Bool.and_assoc, ← add_assoc]

theorem sumDelta_pushImmSeq (i : Nat) : sumDelta (pushImmSeq i) = 0 := rfl

theorem sumDelta_callSeq (t : callTarget) : sumDelta (callSeq t) = 0 := rfl

theorem callsAlignedB_pushImmSeq (rsp : Int) (i : Nat) (h : rsp % 16 = 0) :
    callsAlignedB rsp (pushImmSeq i) = true := by
  simp [pushImmSeq, callsAlignedB, rspDelta]
  omega

theorem callsAlignedB_callSeq (rsp : Int) (t : callTarget) (h : rsp % 16 = 0) :
    callsAlignedB rsp (callSeq t) = true := by
  simp [callSeq, callsAlignedB, rspDelta]
  omega


theorem ret_not_mem_pushImmSeq (i : Nat) : instr.ret ∉ pushImmSeq i := by
  simp [pushImmSeq]

theorem ret_not_mem_callSeq (t : callTarget) : instr.ret ∉ callSeq t := by
  simp [callSeq]

mutual
/-- Code emitted for one child is machine-stack balanced, keeps every
call site 16-byte aligned relative to a 16-byte aligned start, and
contains no `ret`. -/
theorem compileObj_rsp : ∀ (t : object) (imms code imms₁ : _),
    compileObj imms t = .ok (code, imms₁) →
    sumDelta code = 0 ∧ (∀ rsp : Int, rsp % 16 = 0 → callsAlignedB rsp code = true) ∧
      instr.ret ∉ code
  | .atom s => by
    intro imms code imms₁ h
    simp only [compileObj, compileLit] at h
    split at h
    · exact Except.noConfusion h
    · simp only [Except.ok.injEq, Prod.mk.injEq] at h
      rw [← h.1]
      exact ⟨sumDelta_pushImmSeq _, fun rsp hr => callsAlignedB_pushImmSeq rsp _ hr,
        ret_not_mem_pushImmSeq _⟩
  | .list op cs => by
    intro imms code imms₁ h
    simp only [compileObj] at h
    split at h
    · simp only [compileLit] at h
      split at h
      · exact Except.noConfusion h
      · simp only [Except.ok.injEq, Prod.mk.injEq] at h
        rw [← h.1]
        exact ⟨sumDelta_pushImmSeq _, fun rsp hr => callsAlignedB_pushImmSeq rsp _ hr,
          ret_not_mem_pushImmSeq _⟩
    · cases hc : compileChildren imms cs with
      | error e => simp only [hc, bindErrE] at h; exact Except.noConfusion h
      | ok p =>
        obtain ⟨body, i₁⟩ := p
        simp only [hc, bindOkE] at h
        cases hb : builtins op with
        | none => simp only [hb] at h; exact Except.noConfusion h
        | some t =>
          simp only [hb, Except.ok.injEq, Prod.mk.injEq] at h
          obtain ⟨hsum, halign, hret⟩ := compileChildren_rsp cs imms body i₁ hc
          rw [← h.1]
          refine ⟨?_, ?_, ?_⟩
          · rw [sumDelta_append, hsum, sumDelta_callSeq]; omega
          · intro rsp hr
            rw [callsAlignedB_append, halign rsp hr, hsum, add_zero,
              callsAlignedB_callSeq rsp t hr]
            rfl
          · rw [List.mem_append]
            rintro (hmem | hmem)
            · exact hret hmem
            · exact ret_not_mem_callSeq t hmem

theorem compileChildren_rsp : ∀ (cs : List object) (imms code imms₁ : _),
    compileChildren imms cs = .ok (code, imms₁) →
    sumDelta code = 0 ∧ (∀ rsp : Int, rsp % 16 = 0 → callsAlignedB rsp code = true) ∧
      instr.ret ∉ code
  | [] => by
    intro imms code imms₁ h
    simp only [compileChildren, Except.ok.injEq, Prod.mk.injEq] at h
    rw [← h.1]
    exact ⟨rfl, fun rsp _ => rfl, by simp⟩
  | c :: cs => by
    intro imms code imms₁ h
    simp only [compileChildren] at h
    cases hc : compileObj imms c with
    | error e => simp only [hc, bindErrE] at h; exact Except.noConfusion h
    | ok p =>
      obtain ⟨c₁, i₁⟩ := p
      simp only [hc, bindOkE] at h
      cases hcs : compileChildren i₁ cs with
      | error e => simp only [hcs, bindErrE] at h; exact Except.noConfusion h
      | ok q =>
        obtain ⟨c₂, i₂⟩ := q
        simp only [hcs, bindOkE, Except.ok.injEq, Prod.mk.injEq] at h
        obtain ⟨hsum₁, halign₁, hret₁⟩ := compileObj_rsp c imms c₁ i₁ hc
        obtain ⟨hsum₂, halign₂, hret₂⟩ := compileChildren_rsp cs i₁ c₂ i₂ hcs
        rw [← h.1]
        refine ⟨?_, ?_, ?_⟩
        · rw [sumDelta_append, hsum₁, hsum₂]; rfl
        · intro rsp hr
          rw [callsAlignedB_append, halign₁ rsp hr, hsum₁, add_zero,
            halign₂ rsp hr]
          rfl
        · rw [List.mem_append]
          rintro (hmem | hmem)
          · exact hret₁ hmem
          · exact hret₂ hmem
end

/-! ### Immediate indices embedded in the code -/

/-- The `imm32` operands of the `mov rdx` instructions, in emission
order: the indices through which the emitted code will reach the
immediates table. -/
def immIndices : List instr → List Nat
  | [] => []
  | .mov_rdx_imm32 i :: rest => i :: immIndices rest
  | _ :: rest => immIndices rest

theorem immIndices_append (a b : List instr) :
    immIndices (a ++ b) = immIndices a ++ immIndices b := by
  induction a with
  | nil => rfl
  | cons i rest ih =>
    have ih₁ : immIndices (rest.append b) = immIndices rest ++ immIndices b := ih
    cases i <;> simp only [List.cons_append, immIndices, ih₁]

theorem immIndices_pushImmSeq (i : Nat) : immIndices (pushImmSeq i) = [i] := rfl

theorem immIndices_callSeq (t : callTarget) : immIndices (callSeq t) = [] := rfl

mutual
/-- The k-th literal sequence emitted carries immediate index k: the
indices in the code of a subtree compiled with `imms` already tabled are
exactly `imms.length, imms.length+1, ...`, one per literal. -/
theorem compileObj_indices : ∀ (t : object) (imms code imms₁ : _),
    compileObj imms t = .ok (code, imms₁) →
    immIndices code = List.range' imms.length (lits t).length
  | .atom s => by
    intro imms code imms₁ h
    simp only [compileObj, compileLit] at h
    split at h
    · exact Except.noConfusion h
    · simp only [Except.ok.injEq, Prod.mk.injEq] at h
      rw [← h.1, immIndices_pushImmSeq, lits]
      rfl
  | .list op cs => by
    intro imms code imms₁ h
    simp only [compileObj] at h
    split at h
    · next hop =>
      simp only [compileLit] at h
      split at h
      · exact Except.noConfusion h
      · simp only [Except.ok.injEq, Prod.mk.injEq] at h
        rw [← h.1, immIndices_pushImmSeq, lits, if_pos hop]
        rfl
    · next hop =>
      cases hc : compileChildren imms cs with
      | error e => simp only [hc, bindErrE] at h; exact Except.noConfusion h
      | ok p =>
        obtain ⟨body, i₁⟩ := p
        simp only [hc, bindOkE] at h
        cases hb : builtins op with
        | none => simp only [hb] at h; exact Except.noConfusion h
        | some t =>
          simp only [hb, Except.ok.injEq, Prod.mk.injEq] at h
          rw [← h.1, immIndices_append, immIndices_callSeq, List.append_nil,
            lits, if_neg hop]
          exact compileChildren_indices cs imms body i₁ hc

theorem compileChildren_indices : ∀ (cs : List object) (imms code imms₁ : _),
    compileChildren imms cs = .ok (code, imms₁) →
    immIndices code = List.range' imms.length (litsList cs).length
  | [] => by
    intro imms code imms₁ h
    simp only [compileChildren, Except.ok.injEq, Prod.mk.injEq] at h
    rw [← h.1, litsList]
    rfl
  | c :: cs => by
    intro imms code imms₁ h
    simp only [compileChildren] at h
    cases hc : compileObj imms c with
    | error e => simp only [hc, bindErrE] at h; exact Except.noConfusion h
    | ok p =>
      obtain ⟨c₁, i₁⟩ := p
      simp only [hc, bindOkE] at h
      cases hcs : compileChildren i₁ cs with
      | error e => simp only [hcs, bindErrE] at h; exact Except.noConfusion h
      | ok q =>
        obtain ⟨c₂, i₂⟩ := q
        simp only [hcs, bindOkE, Except.ok.injEq, Prod.mk.injEq] at h
        have hi₁ : i₁ = imms ++ lits c := compileObj_imms c imms c₁ i₁ hc
        rw [← h.1, immIndices_append,
          compileObj_indices c imms c₁ i₁ hc,
          compileChildren_indices cs i₁ c₂ i₂ hcs,
          hi₁, List.length_append, litsList, List.length_append,
          List.range'_append_1,
          Nat.add_comm (litsList cs).length (lits c).length]
end



/-! ### The unchecked immediates access is never out of bounds -/

theorem readIntTop_ne_oob (o : object) : readIntTop o ≠ .error .oobImmediate := by
  cases o with
  | atom s =>
    rw [readIntTop]
    cases stol s <;> simp
  | list op cs => rw [readIntTop]; simp

theorem op_add_ne_oob (st : List object) : op_add st ≠ .error .oobImmediate := by
  intro h
  match st with
  | [] => simp [op_add] at h
  | [a] =>
    simp only [op_add] at h
    cases hr : readIntTop a with
    | error e =>
      rw [hr] at h
      simp only [bindErrE, Except.error.injEq] at h
      exact readIntTop_ne_oob a (h ▸ hr)
    | ok x => rw [hr] at h; simp [bindOkE] at h
  | a :: b :: r =>
    simp only [op_add] at h
    cases hr : readIntTop a with
    | error e =>
      rw [hr] at h
      simp only [bindErrE, Except.error.injEq] at h
      exact readIntTop_ne_oob a (h ▸ hr)
    | ok x =>
      rw [hr] at h
      simp only [bindOkE] at h
      cases hrb : readIntTop b with
      | error e =>
        rw [hrb] at h
        simp only [bindErrE, Except.error.injEq] at h
        exact readIntTop_ne_oob b (h ▸ hrb)
      | ok y =>
        rw [hrb] at h
        simp only [bindOkE] at h
        split at h
        · exact Except.noConfusion h
        · simp at h

theorem op_mul_ne_oob (st : List object) : op_mul st ≠ .error .oobImmediate := by
  intro h
  match st with
  | [] => simp [op_mul] at h
  | [a] =>
    simp only [op_mul] at h
    cases hr : readIntTop a with
    | error e =>
      rw [hr] at h
      simp only [bindErrE, Except.error.injEq] at h
      exact readIntTop_ne_oob a (h ▸ hr)
    | ok x => rw [hr] at h; simp [bindOkE] at h
  | a :: b :: r =>
    simp only [op_mul] at h
    cases hr : readIntTop a with
    | error e =>
      rw [hr] at h
      simp only [bindErrE, Except.error.injEq] at h
      exact readIntTop_ne_oob a (h ▸ hr)
    | ok x =>
      rw [hr] at h
      simp only [bindOkE] at h
      cases hrb : readIntTop b with
      | error e =>
        rw [hrb] at h
        simp only [bindErrE, Except.error.injEq] at h
        exact readIntTop_ne_oob b (h ▸ hrb)
      | ok y =>
        rw [hrb] at h
        simp only [bindOkE] at h
        split at h
        · exact Except.noConfusion h
        · simp at h

theorem execInstr_no_oob (imms : List object) (s : runState) (i : instr)
    (hrdx : ∀ j, s.rdx = some j → j < imms.length) :
    execInstr imms s i ≠ .error .oobImmediate := by
  intro h
  cases i with
  | call_rax =>
    simp only [execInstr] at h
    split at h
    · exact (by simp at h : False)
    · next t heq =>
      cases t with
      | op_add =>
        simp only [applyTarget] at h
        cases ha : op_add s.stack with
        | error e =>
          rw [ha] at h
          simp only [Except.map, Except.error.injEq] at h
          exact op_add_ne_oob s.stack (h ▸ ha)
        | ok st => rw [ha] at h; simp [Except.map] at h
      | op_mul =>
        simp only [applyTarget] at h
        cases ha : op_mul s.stack with
        | error e =>
          rw [ha] at h
          simp only [Except.map, Except.error.injEq] at h
          exact op_mul_ne_oob s.stack (h ▸ ha)
        | ok st => rw [ha] at h; simp [Except.map] at h
      | op_print =>
        simp only [applyTarget] at h
        split at h
        · simp at h
        · simp at h
      | do_push_imm =>
        simp only [applyTarget] at h
        split at h
        · simp at h
        · next j hdx =>
          split at h
          · simp at h
          · next hg =>
            rw [List.getElem?_eq_getElem (hrdx j hdx)] at hg
            exact Option.noConfusion hg
  | push_rdi => simp only [execInstr] at h; exact Except.noConfusion h
  | pop_rdi => simp only [execInstr] at h; exact Except.noConfusion h
  | push_rsi => simp only [execInstr] at h; exact Except.noConfusion h
  | pop_rsi => simp only [execInstr] at h; exact Except.noConfusion h
  | mov_rax_imm64 t => simp only [execInstr] at h; exact Except.noConfusion h
  | mov_rdx_imm32 k => simp only [execInstr] at h; exact Except.noConfusion h
  | sub_rsp_8 => simp only [execInstr] at h; exact Except.noConfusion h
  | add_rsp_8 => simp only [execInstr] at h; exact Except.noConfusion h
  | ret => simp only [execInstr] at h; exact Except.noConfusion h

theorem applyTarget_rdx (imms : List object) (t : callTarget) (s s₁ : runState)
    (h : applyTarget imms t s = .ok s₁) : s₁.rdx = s.rdx := by
  cases t with
  | op_add =>
    simp only [applyTarget] at h
    cases ha : op_add s.stack with
    | error e => rw [ha] at h; simp [Except.map] at h
    | ok st =>
      rw [ha] at h
      simp only [Except.map, Except.ok.injEq] at h
      rw [← h]
  | op_mul =>
    simp only [applyTarget] at h
    cases ha : op_mul s.stack with
    | error e => rw [ha] at h; simp [Except.map] at h
    | ok st =>
      rw [ha] at h
      simp only [Except.map, Except.ok.injEq] at h
      rw [← h]
  | op_print =>
    simp only [applyTarget] at h
    split at h
    · simp only [Except.ok.injEq] at h
      rw [← h]
    · exact Except.noConfusion h
  | do_push_imm =>
    simp only [applyTarget] at h
    split at h
    · exact Except.noConfusion h
    · next j hdx =>
      split at h
      · simp only [Except.ok.injEq] at h
        rw [← h, hdx]
      · exact Except.noConfusion h

theorem execInstr_ok_rdx (imms : List object) (s : runState) (i : instr) (s₁ : runState)
    (h : execInstr imms s i = .ok s₁) :
    s₁.rdx = s.rdx ∨ ∃ k, i = .mov_rdx_imm32 k ∧ s₁.rdx = some k := by
  cases i with
  | call_rax =>
    simp only [execInstr] at h
    split at h
    · exact Except.noConfusion h
    · next t heq => exact Or.inl (applyTarget_rdx imms t s s₁ h)
  | mov_rax_imm64 t =>
    simp only [execInstr, Except.ok.injEq] at h
    exact Or.inl (by rw [← h])
  | mov_rdx_imm32 k =>
    simp only [execInstr, Except.ok.injEq] at h
    exact Or.inr ⟨k, rfl, by rw [← h]⟩
  | push_rdi => simp only [execInstr, Except.ok.injEq] at h; exact Or.inl (by rw [← h])
  | pop_rdi => simp only [execInstr, Except.ok.injEq] at h; exact Or.inl (by rw [← h])
  | push_rsi => simp only [execInstr, Except.ok.injEq] at h; exact Or.inl (by rw [← h])
  | pop_rsi => simp only [execInstr, Except.ok.injEq] at h; exact Or.inl (by rw [← h])
  | sub_rsp_8 => simp only [execInstr, Except.ok.injEq] at h; exact Or.inl (by rw [← h])
  | add_rsp_8 => simp only [execInstr, Except.ok.injEq] at h; exact Or.inl (by rw [← h])
  | ret => simp only [execInstr, Except.ok.injEq] at h; exact Or.inl (by rw [← h])

/-- As long as every index embedded in the code is within the immediates
table and the index register can only hold embedded indices, execution
never faults on the unchecked table access. -/
theorem exec_no_oob : ∀ (code : List instr) (imms : List object) (s : runState),
    (∀ i, i ∈ immIndices code → i < imms.length) →
    (∀ j, s.rdx = some j → j < imms.length) →
    exec imms code s ≠ .error .oobImmediate := by
  intro code
  induction code with
  | nil => intro imms s _ _ h; exact Except.noConfusion h
  | cons i rest ih =>
    intro imms s hidx hrdx h
    rw [exec] at h
    cases hstep : execInstr imms s i with
    | error e =>
      rw [hstep] at h
      simp only [bindErrE, Except.error.injEq] at h
      exact execInstr_no_oob imms s i hrdx (h ▸ hstep)
    | ok s₁ =>
      rw [hstep] at h
      simp only [bindOkE] at h
      have hidx₁ : ∀ k, k ∈ immIndices rest → k < imms.length := by
        intro k hk
        apply hidx
        cases i <;> simp only [immIndices] <;>
          first
            | exact hk
            | exact List.mem_cons_of_mem _ hk
      have hrdx₁ : ∀ j, s₁.rdx = some j → j < imms.length := by
        intro j hj
        rcases execInstr_ok_rdx imms s i s₁ hstep with heq | ⟨k, hik, hk⟩
        · exact hrdx j (heq ▸ hj)
        · subst hik
          rw [hk, Option.some.injEq] at hj
          subst hj
          exact hidx k (by
            rw [show immIndices (instr.mov_rdx_imm32 k :: rest) =
              k :: immIndices rest from rfl]
            exact List.mem_cons_self k (immIndices rest))
      exact ih imms s₁ hidx₁ hrdx₁ h



/-! ### The draft compiler of `src/sexpr.h`

The earlier draft (`compiled_fn`, `compile` in sexpr.h) uses the first
child as the operator, pushes integer literals directly onto the machine
stack with `push imm32`, pops operands into `rdi`/`rsi` before each
call, and keeps the running machine-stack depth in the `int stackofs`
counter, inserting `sub rsp,8` / `add rsp,8` around a call when
`stackofs % 2 == 0` (the test is evenness, which the euclidean `% 2 = 0`
below models exactly, negatives included). -/

/-- Objects of the draft: `using object = std::variant<class list,
atomic>` with `class list : public std::vector<object>` — no operator
head; the operator is the first child. -/
inductive objectH where
  | atomic (s : String)
  | listH (children : List objectH)
deriving Repr

/-- The x64 instructions the draft emits, one constructor per opcode
byte sequence. -/
inductive instrH where
  | pop_rdi
  | pop_rsi
  | sub_rsp_8
  | add_rsp_8
  | mov_rax_imm64 (addr : Nat)
  | call_rax
  | push_rax
  | push_imm32 (v : Nat)
  | pop_rax
  | ret
deriving DecidableEq, Repr

/-- The draft's `ops` map: name to `{nargs, addr}` (addresses opaque
tags).  The lookup is `ops[...]` — `std::map::operator[]` — which
value-initialises a missing key to `{0, 0}`: unknown operators do not
fail, they emit a zero-operand call to address 0. -/
def opsH : String → Nat × Nat
  | "+" => (2, 1)
  | "*" => (2, 2)
  | "print" => (1, 3)
  | _ => (0, 0)

/-- Compile-time failures of the draft: `std::stoi` throwing on a
non-numeric atom, and the undefined behaviour of `root.front()` /
`root.begin()+1` on an empty list or of dereferencing the null
`get_if<atomic>` when a list's head is itself a list. -/
inductive compileErrH where
  | emptyList
  | headNotAtomic
  | badLiteral
deriving DecidableEq, Repr

/-- The call group emitted when a frame completes, after
`stackofs -= op.nargs` left the counter at `ofs₂`: conditional operand
pops, the parity adjustment, the indirect call, and `push rax` for the
result. -/
def groupH (nargs addr : Nat) (ofs₂ : Int) : List instrH :=
  (if nargs > 0 then [instrH.pop_rdi] else []) ++
  (if nargs > 1 then [instrH.pop_rsi] else []) ++
  (if ofs₂ % 2 = 0 then [instrH.sub_rsp_8] else []) ++
  [.mov_rax_imm64 addr, .call_rax] ++
  (if ofs₂ % 2 = 0 then [instrH.add_rsp_8] else []) ++
  [.push_rax]

mutual
/-- One child of a draft frame, threading `stackofs`: an atomic child is
parsed with `std::stoi` and pushed as a 32-bit immediate; a list child
becomes a nested frame — its first child must be an atomic operator
name, its remaining children are compiled in order, then its call group
is emitted. -/
def compileObjH (ofs : Int) : objectH → Except compileErrH (List instrH × Int)
  | .atomic a =>
    match stol a with
    | none => .error .badLiteral
    | some n => .ok ([.push_imm32 (n % 4294967296).toNat], ofs + 1)
  | .listH cs =>
    match cs with
    | [] => .error .emptyList
    | .listH _ :: _ => .error .headNotAtomic
    | .atomic opName :: args => do
      let (body, ofs₁) ← compileArgsH ofs args
      let nargs := (opsH opName).1
      let addr := (opsH opName).2
      .ok (body ++ groupH nargs addr (ofs₁ - nargs), ofs₁ - nargs + 1)

/-- The argument cursor walk of a draft frame. -/
def compileArgsH (ofs : Int) : List objectH → Except compileErrH (List instrH × Int)
  | [] => .ok ([], ofs)
  | c :: cs => do
    let (code₁, ofs₁) ← compileObjH ofs c
    let (code₂, ofs₂) ← compileArgsH ofs₁ cs
    .ok (code₁ ++ code₂, ofs₂)
end

/-- `compiled_fn compile(const sexpr::list &root)` of the draft: the
frame loop started on the root (first child the operator, `stackofs`
starting at 0), epilogue `pop rax; ret`. -/
def compileH (root : List objectH) : Except compileErrH (List instrH) := do
  let (code, _) ← compileObjH 0 (.listH root)
  .ok (code ++ [.pop_rax, .ret])

/-- `RSP` movement of each draft instruction (`call` net zero as in the
canonical model). -/
def rspDeltaH : instrH → Int
  | .pop_rdi => 8
  | .pop_rsi => 8
  | .sub_rsp_8 => -8
  | .add_rsp_8 => 8
  | .mov_rax_imm64 _ => 0
  | .call_rax => 0
  | .push_rax => -8
  | .push_imm32 _ => -8
  | .pop_rax => 8
  | .ret => 0

def sumDeltaH (code : List instrH) : Int := (code.map rspDeltaH).sum

def callsAlignedHB : Int → List instrH → Bool
  | _, [] => true
  | rsp, i :: rest =>
    ((i != .call_rax) || (rsp % 16 == 0)) && callsAlignedHB (rsp + rspDeltaH i) rest

theorem sumDeltaH_cons (i : instrH) (rest : List instrH) :
    sumDeltaH (i :: rest) = rspDeltaH i + sumDeltaH rest := by
  simp [sumDeltaH]

theorem sumDeltaH_append (a b : List instrH) :
    sumDeltaH (a ++ b) = sumDeltaH a + sumDeltaH b := by
  simp [sumDeltaH]

theorem callsAlignedHB_append (a b : List instrH) (rsp : Int) :
    callsAlignedHB rsp (a ++ b) =
      (callsAlignedHB rsp a && callsAlignedHB (rsp + sumDeltaH a) b) := by
  induction a generalizing rsp with
  | nil => simp [callsAlignedHB, sumDeltaH]
  | cons i rest ih =>
    rw [List.cons_append]
    rw [show callsAlignedHB rsp (i :: (rest ++ b)) =
      ((i != .call_rax || rsp % 16 == 0) && callsAlignedHB (rsp + rspDeltaH i) (rest ++ b))
      from rfl]
    rw [ih]
    rw [show callsAlignedHB rsp (i :: rest) =
      ((i != .call_rax || rsp % 16 == 0) && callsAlignedHB (rsp + rspDeltaH i) rest)
      from rfl]
    rw [sumDeltaH_cons, Bool.and_assoc, ← add_assoc]

/-- Net stack effect of the call group: undo the operand pops, add the
result push. -/
theorem groupH_sum (nargs addr : Nat) (ofs₂ : Int) (hn : nargs ≤ 2) :
    sumDeltaH (groupH nargs addr ofs₂) = 8 * nargs - 8 := by
  interval_cases nargs <;> by_cases hadj : ofs₂ % 2 = 0 <;>
    simp [groupH, hadj, sumDeltaH, rspDeltaH]

/-- The group's one call site lands 16-byte aligned whenever the entry
invariant `rsp ≡ 8 − 8·(ofs₂ + nargs) (mod 16)` holds — by the parity
adjustment, whatever the parity of `ofs₂`. -/
theorem groupH_aligned (nargs addr : Nat) (ofs₂ rsp : Int) (hn : nargs ≤ 2)
    (hrsp : (rsp - (8 - 8 * (ofs₂ + nargs))) % 16 = 0) :
    callsAlignedHB rsp (groupH nargs addr ofs₂) = true := by
  interval_cases nargs <;> by_cases hadj : ofs₂ % 2 = 0 <;>
    simp [groupH, hadj, callsAlignedHB, rspDeltaH] <;> omega

theorem opsH_nargs_le (op : String) : (opsH op).1 ≤ 2 := by
  unfold opsH
  split <;> omega

mutual
/-- Draft code for one child: the machine stack mirrors `stackofs`
(8 bytes per counted slot) and every call site is aligned, given entry
`RSP ≡ 8 − 8·ofs (mod 16)`. -/
theorem compileObjH_rsp : ∀ (t : objectH) (ofs : Int) (code : List instrH) (ofs₁ : Int),
    compileObjH ofs t = .ok (code, ofs₁) →
    sumDeltaH code = -8 * (ofs₁ - ofs) ∧
      ∀ rsp : Int, (rsp - (8 - 8 * ofs)) % 16 = 0 → callsAlignedHB rsp code = true
  | .atomic a => by
    intro ofs code ofs₁ h
    simp only [compileObjH] at h
    cases hs : stol a with
    | none => rw [hs] at h; exact Except.noConfusion h
    | some n =>
      rw [hs] at h
      simp only [Except.ok.injEq, Prod.mk.injEq] at h
      rw [← h.1, ← h.2]
      constructor
      · simp [sumDeltaH, rspDeltaH]
      · intro rsp _
        simp [callsAlignedHB]
  | .listH cs => by
    intro ofs code ofs₁ h
    match cs with
    | [] => exact Except.noConfusion h
    | .listH x :: rest => exact Except.noConfusion h
    | .atomic opName :: args =>
      simp only [compileObjH] at h
      cases hc : compileArgsH ofs args with
      | error e => rw [hc] at h; simp only [bindErrE] at h; exact Except.noConfusion h
      | ok p =>
        obtain ⟨body, o₁⟩ := p
        rw [hc] at h
        simp only [bindOkE, Except.ok.injEq, Prod.mk.injEq] at h
        obtain ⟨hsum, halign⟩ := compileArgsH_rsp args ofs body o₁ hc
        have hn := opsH_nargs_le opName
        have hgsum := groupH_sum (opsH opName).1 (opsH opName).2
          (o₁ - (opsH opName).1) hn
        rw [← h.1, ← h.2]
        constructor
        · rw [sumDeltaH_append, hsum, hgsum]
          ring
        · intro rsp hrsp
          rw [callsAlignedHB_append, halign rsp hrsp, hsum]
          have hinv : (rsp + -8 * (o₁ - ofs) -
              (8 - 8 * ((o₁ - ((opsH opName).1 : Int)) + ((opsH opName).1 : Int)))) =
              rsp - (8 - 8 * ofs) := by ring
          have hgalign := groupH_aligned (opsH opName).1 (opsH opName).2
            (o₁ - (opsH opName).1) (rsp + -8 * (o₁ - ofs)) hn (by rw [hinv]; exact hrsp)
          rw [hgalign]
          rfl

theorem compileArgsH_rsp : ∀ (args : List objectH) (ofs : Int) (code : List instrH) (ofs₁ : Int),
    compileArgsH ofs args = .ok (code, ofs₁) →
    sumDeltaH code = -8 * (ofs₁ - ofs) ∧
      ∀ rsp : Int, (rsp - (8 - 8 * ofs)) % 16 = 0 → callsAlignedHB rsp code = true
  | [] => by
    intro ofs code ofs₁ h
    simp only [compileArgsH, Except.ok.injEq, Prod.mk.injEq] at h
    rw [← h.1, ← h.2]
    constructor
    · simp [sumDeltaH]
    · intro rsp _; rfl
  | c :: cs => by
    intro ofs code ofs₁ h
    simp only [compileArgsH] at h
    cases hc : compileObjH ofs c with
    | error e => rw [hc] at h; simp only [bindErrE] at h; exact Except.noConfusion h
    | ok p =>
      obtain ⟨c₁, o₁⟩ := p
      rw [hc] at h
      simp only [bindOkE] at h
      cases hcs : compileArgsH o₁ cs with
      | error e => rw [hcs] at h; simp only [bindErrE] at h; exact Except.noConfusion h
      | ok q =>
        obtain ⟨c₂, o₂⟩ := q
        rw [hcs] at h
        simp only [bindOkE, Except.ok.injEq, Prod.mk.injEq] at h
        obtain ⟨hsum₁, halign₁⟩ := compileObjH_rsp c ofs c₁ o₁ hc
        obtain ⟨hsum₂, halign₂⟩ := compileArgsH_rsp cs o₁ c₂ o₂ hcs
        rw [← h.1, ← h.2]
        constructor
        · rw [sumDeltaH_append, hsum₁, hsum₂]; ring
        · intro rsp hrsp
          have hinv : rsp + -8 * (o₁ - ofs) - (8 - 8 * o₁) = rsp - (8 - 8 * ofs) := by
            ring
          rw [callsAlignedHB_append, halign₁ rsp hrsp, hsum₁,
            halign₂ (rsp + -8 * (o₁ - ofs)) (by rw [hinv]; exact hrsp)]
          rfl
end

/-- Every call site in a region the draft compiler produces is 16-byte
aligned at runtime, `RSP ≡ 8 (mod 16)` on region entry. -/
theorem compileH_aligned (root : List objectH) (code : List instrH)
    (h : compileH root = .ok code) :
    ∀ rsp : Int, rsp % 16 = 8 → callsAlignedHB rsp code = true := by
  intro rsp hrsp
  rw [compileH] at h
  cases hc : compileObjH 0 (.listH root) with
  | error e => rw [hc] at h; simp only [bindErrE] at h; exact Except.noConfusion h
  | ok p =>
    obtain ⟨body, ofs₁⟩ := p
    rw [hc] at h
    simp only [bindOkE, Except.ok.injEq] at h
    obtain ⟨hsum, halign⟩ := compileObjH_rsp (.listH root) 0 body ofs₁ hc
    rw [← h, callsAlignedHB_append, halign rsp (by omega)]
    rfl



/-! ### The claims -/

/-- C1 counterexample: `(+ 9223372036854775807 1)` satisfies the
section 3 invariants (root headed by the Built-in Table operator `+`
with two children, both literals parse as machine longs — the first is
exactly `LONG_MAX`), yet running the compiled region does not terminate
with the stack holding exactly one Object: the source's `long` addition
overflows (undefined behaviour, a fault in the model), so no result
Object is produced. -/
theorem claim_C1_counterexample :
    wfRoot "+" [.atom "9223372036854775807", .atom "1"] = true ∧
    compileAndRun "+" [.atom "9223372036854775807", .atom "1"] =
      .ok (.error .signedOverflow) := by
  constructor
  · decide
  · decide

/-- C1 (amended): for every tree satisfying the section 3 invariants —
root and every inner list headed by a Built-in Table operator of
matching arity, children in left-to-right order, numeric literals
parseable — whose immediates stay within bound and whose evaluation is
defined (every literal fits a machine `long` and no intermediate sum or
product overflows one, expressed as the denotation `evalObj` producing a
result), compiling succeeds and running the compiled region on an empty
evaluation stack terminates with the stack holding exactly one Object:
the program's result.  In particular (instantiated by the witness)
`(+ 1 2)` leaves the single atom `"3"` and `(* 3 (+ 4 5))` leaves
`"27"`. -/
theorem claim_C1 :
    ∀ (op : String) (cs : List object) (r : object), wfRoot op cs = true →
      (litsList cs).length ≤ u32max → evalObj (.list op cs) = some r →
      compileAndRun op cs = .ok (.ok [r]) := by
  intro op cs r hwf hlen heval
  exact wf_run_helper op cs r hwf hlen heval

/-- C1 witness: the two concrete programs of the claim, by applying the
theorem. -/
theorem claim_C1_witness :
    compileAndRun "+" [.atom "1", .atom "2"] = .ok (.ok [.atom "3"]) ∧
    compileAndRun "*" [.atom "3", .list "+" [.atom "4", .atom "5"]] =
      .ok (.ok [.atom "27"]) :=
  ⟨claim_C1 "+" [.atom "1", .atom "2"] (.atom "3")
      (by decide) (by decide) (by decide),
   claim_C1 "*" [.atom "3", .list "+" [.atom "4", .atom "5"]] (.atom "27")
      (by decide) (by decide) (by decide)⟩

/-- C2 (code bug): `void native_function::operator()()` runs the region
on a fresh empty evaluation stack but returns nothing and never checks
the final stack size.  Compiling `(+ 1 2 3)` succeeds, running it leaves
TWO objects (`"5"` and `"1"`) on the evaluation stack, and the call
still completes silently — no result is returned and no
`RuntimeStackInvariantError` exists anywhere in the code. -/
theorem claim_C2 :
    compileAndRun "+" [.atom "1", .atom "2", .atom "3"] =
      .ok (.ok [.atom "5", .atom "1"]) ∧
    (compile "+" [.atom "1", .atom "2", .atom "3"]).map native_function.call =
      .ok (.ok ()) := by
  constructor
  · decide
  · decide

/-- C4 (code bug): `compile` performs no arity checking — the builtin
table of part_000 stores only addresses, never arities, and the compile
loop never counts children.  `(+ 1)` compiles successfully into a region
(no `ArityMismatchError` is possible), and invoking that region pops an
empty slot below the single operand: the undefined behaviour surfaces in
the model as a stack-underflow fault at run time, not a compile-time
error. -/
theorem claim_C4 :
    (compile "+" [.atom "1"]).isOk = true ∧
    compileAndRun "+" [.atom "1"] = .ok (.error .stackUnderflow) := by
  constructor
  · decide
  · decide

/-- C5 counterexample: the tree `(+ () 2)` contains a list — the empty
operator-less list `()` — whose operator `""` is not in the Built-in
Table, yet `compile` succeeds: an operator-less list is an inert
literal, pushed into the immediates table without ever being resolved. -/
theorem claim_C5_counterexample :
    (compile "+" [.list "" [], .atom "2"]).isOk = true := by
  decide

/-- C5 (amended): for every tree whose root operator, or some nested
list with a NON-EMPTY operator, is absent from the Built-in Table — and
whose literal count stays within the immediates bound, so that the
overflow guard cannot fire first — `compile` fails with
`UnknownOperatorError` (`"compile: Unknown function."`) and produces no
region; in particular `(foo 1 2)` so fails (witness). -/
theorem claim_C5 :
    ∀ (op : String) (cs : List object),
      ((builtins op).isNone || anyBadOp cs) = true →
      (litsList cs).length ≤ u32max →
      compile op cs = .error .unknownFunction := by
  intro op cs hbad hlen
  have hcl : compileList [] op cs = .error .unknownFunction := by
    rw [compileList]
    by_cases hany : anyBadOp cs = true
    · rw [compileChildren_bad cs [] hany (by simpa using hlen), bindErrE]
    · have hany₁ : anyBadOp cs = false := by
        cases hq : anyBadOp cs
        · rfl
        · exact absurd hq hany
      obtain ⟨body, hb⟩ := compileChildren_ok cs [] hany₁ (by simpa using hlen)
      rw [hb, bindOkE]
      have hnone : builtins op = none := by
        rcases Bool.or_eq_true_iff.mp hbad with h | h
        · exact Option.isNone_iff_eq_none.mp h
        · exact absurd h hany
      rw [hnone]
  rw [compile, hcl, bindErrE]

/-- C5 witness: `(foo 1 2)` fails with the unknown-operator error, by
applying the amended theorem. -/
theorem claim_C5_witness :
    compile "foo" [.atom "1", .atom "2"] = .error .unknownFunction :=
  claim_C5 "foo" [.atom "1", .atom "2"] (by decide) (by decide)

/-- C8: on every non-empty evaluation stack, the `print` builtin
(`print(std::cout, stack->back()) << std::endl`) writes the top
element's external textual form (the `print` routine of part_001)
followed by a newline, and leaves the evaluation stack — and the printed
element on top of it — unchanged. -/
theorem claim_C8 :
    ∀ (x : object) (rest : List object) (rdx : Option Nat)
      (rax : Option callTarget) (out : String) (imms : List object),
      applyTarget imms .op_print ⟨x :: rest, rdx, rax, out⟩ =
        .ok ⟨x :: rest, rdx, rax, out ++ printO x ++ "\n"⟩ := by
  intro x rest rdx rax out imms
  rfl



/-- C3: in every compiled region the runtime `RSP` is 16-byte aligned at
the point of every emitted `CALL` instruction, `RSP ≡ 8 (mod 16)` at
region entry (the trampoline's own call having pushed the return
address).  In the canonical compiler (part_000) every call site sits at
fixed depth — prologue push plus the two register saves — so parity is
never wrong and no adjustment is ever needed; in the draft compiler
(sexpr.h), which pushes operands on the machine stack, the emitter
tracks depth parity in `stackofs` and inserts the 8-byte
`sub rsp,8`/`add rsp,8` adjustment around a call exactly when parity
would otherwise be wrong.  Both compilers keep every call aligned. -/
theorem claim_C3 :
    (∀ (op : String) (cs : List object) (fn : native_function),
      compile op cs = .ok fn → ∀ rsp : Int, rsp % 16 = 8 →
        callsAlignedB rsp fn.code = true) ∧
    (∀ (root : List objectH) (code : List instrH),
      compileH root = .ok code → ∀ rsp : Int, rsp % 16 = 8 →
        callsAlignedHB rsp code = true) := by
  constructor
  · intro op cs fn h rsp hrsp
    obtain ⟨body, t, hb, hcc, hcode⟩ := compile_shape op cs fn h
    obtain ⟨hsum, halign, _⟩ := compileChildren_rsp cs [] body fn.immediates hcc
    have h16 : (rsp + -8) % 16 = 0 := by omega
    rw [hcode]
    rw [show callsAlignedB rsp (instr.push_rsi ::
        ((body ++ callSeq t) ++ [instr.pop_rsi, instr.ret])) =
      ((instr.push_rsi != instr.call_rax || rsp % 16 == 0) &&
        callsAlignedB (rsp + rspDelta instr.push_rsi)
          ((body ++ callSeq t) ++ [instr.pop_rsi, instr.ret])) from rfl]
    rw [show rspDelta instr.push_rsi = -8 from rfl]
    rw [callsAlignedB_append, callsAlignedB_append, sumDelta_append, hsum,
      sumDelta_callSeq, halign _ h16]
    simp only [add_zero]
    rw [callsAlignedB_callSeq _ t h16]
    rfl
  · intro root code h rsp hrsp
    exact compileH_aligned root code h rsp hrsp

/-- The region compiled from `(+ 1 2)` by the canonical compiler. -/
def fnAdd12 : native_function :=
  ⟨[.push_rsi,
    .push_rdi, .push_rsi, .mov_rdx_imm32 0, .mov_rax_imm64 .do_push_imm,
    .call_rax, .pop_rsi, .pop_rdi,
    .push_rdi, .push_rsi, .mov_rdx_imm32 1, .mov_rax_imm64 .do_push_imm,
    .call_rax, .pop_rsi, .pop_rdi,
    .push_rdi, .push_rsi, .mov_rax_imm64 .op_add, .call_rax, .pop_rsi, .pop_rdi,
    .pop_rsi, .ret],
   [.atom "1", .atom "2"]⟩

/-- The code the draft compiler emits for `(+ 1 2)`. -/
def codeHAdd12 : List instrH :=
  [.push_imm32 1, .push_imm32 2, .pop_rdi, .pop_rsi, .sub_rsp_8,
   .mov_rax_imm64 1, .call_rax, .add_rsp_8, .push_rax, .pop_rax, .ret]

/-- C3 witness: both halves applied to the region compiled from
`(+ 1 2)` with entry `RSP ≡ 8 (mod 16)`. -/
theorem claim_C3_witness :
    callsAlignedB 8 fnAdd12.code = true ∧ callsAlignedHB 8 codeHAdd12 = true :=
  ⟨claim_C3.1 "+" [.atom "1", .atom "2"] fnAdd12 (by decide) 8 (by decide),
   claim_C3.2 [.atomic "+", .atomic "1", .atomic "2"] codeHAdd12 (by decide) 8 (by decide)⟩

/-- C6 counterexample: the claim says any tree within the immediates
bound compiles with every literal appended; `(bar 7)` is far within the
bound yet fails — with `UnknownOperatorError`, not success — because
unknown operators abort the compile first. -/
theorem claim_C6_counterexample :
    (litsList [object.atom "7"]).length ≤ u32max ∧
    compile "bar" [.atom "7"] = .error .unknownFunction := by
  constructor
  · decide
  · decide

theorem anyBadOp_replicate (n : Nat) (s : String) :
    anyBadOp (List.replicate n (.atom s)) = false := by
  induction n with
  | zero => rfl
  | succ k ih =>
    rw [List.replicate_succ, anyBadOp, containsBadOp, ih]
    rfl

theorem litsList_replicate_length (n : Nat) (s : String) :
    (litsList (List.replicate n (.atom s))).length = n := by
  induction n with
  | zero => rfl
  | succ k ih =>
    rw [List.replicate_succ, litsList, lits, List.length_append, ih,
      List.length_cons, List.length_nil]
    omega

/-- C6 (amended): the immediates table never exceeds 2³²−1 entries.
For trees whose resolved operators are all in the Built-in Table:
more literals than the bound makes `compile` fail with
`ImmediatesOverflowError` (`"compile: Too many immediates."`, no region
produced), and any such tree within the bound compiles with every
literal appended to the table in traversal order. -/
theorem claim_C6 :
    (∀ (op : String) (cs : List object) (fn : native_function),
      compile op cs = .ok fn → fn.immediates.length ≤ u32max) ∧
    (∀ (op : String) (cs : List object),
      anyBadOp cs = false → u32max < (litsList cs).length →
      compile op cs = .error .tooManyImmediates) ∧
    (∀ (op : String) (cs : List object) (t : callTarget),
      builtins op = some t → anyBadOp cs = false →
      (litsList cs).length ≤ u32max →
      (compile op cs).map native_function.immediates = .ok (litsList cs)) := by
  refine ⟨?_, ?_, ?_⟩
  · intro op cs fn h
    obtain ⟨body, t, hb, hcc, hcode⟩ := compile_shape op cs fn h
    exact compileChildren_le cs [] body fn.immediates hcc (by decide)
  · intro op cs hok hov
    have hch := compileChildren_overflow cs [] hok (by decide) (by simpa using hov)
    rw [compile, compileList, hch, bindErrE, bindErrE]
  · intro op cs t hb hok hlen
    obtain ⟨body, hch⟩ := compileChildren_ok cs [] hok (by simpa using hlen)
    rw [compile, compileList, hch, bindOkE, hb, bindOkE]
    rw [show ([] : List object) ++ litsList cs = litsList cs from by simp]
    rfl

/-- C6 witness: all three parts applied concretely — the bound holds for
the region of `(+ 1 2)` and its table is exactly the two literals; a
tree of 2³² numeric literals overflows. -/
theorem claim_C6_witness :
    fnAdd12.immediates.length ≤ u32max ∧
    compile "+" (List.replicate 4294967296 (.atom "1")) =
      .error .tooManyImmediates ∧
    (compile "+" [.atom "1", .atom "2"]).map native_function.immediates =
      .ok [.atom "1", .atom "2"] :=
  ⟨claim_C6.1 "+" [.atom "1", .atom "2"] fnAdd12 (by decide),
   claim_C6.2.1 "+" (List.replicate 4294967296 (.atom "1"))
     (anyBadOp_replicate 4294967296 "1")
     (by rw [litsList_replicate_length]; decide),
   claim_C6.2.2 "+" [.atom "1", .atom "2"] .op_add (by decide) (by decide)
     (by decide)⟩



/-- Helper for C7: running the region compiled from `(+ x y)` performs
exactly `op_add` on the evaluation stack `[y, x]` (second operand on
top, read first) — parse failures, `long` overflow and success all
included. -/
theorem run_add_pair (x y : String) :
    compileAndRun "+" [.atom x, .atom y] = .ok (op_add [.atom y, .atom x]) := by
  have hc : compile "+" [.atom x, .atom y] = .ok
      ⟨[.push_rsi,
        .push_rdi, .push_rsi, .mov_rdx_imm32 0, .mov_rax_imm64 .do_push_imm,
        .call_rax, .pop_rsi, .pop_rdi,
        .push_rdi, .push_rsi, .mov_rdx_imm32 1, .mov_rax_imm64 .do_push_imm,
        .call_rax, .pop_rsi, .pop_rdi,
        .push_rdi, .push_rsi, .mov_rax_imm64 .op_add, .call_rax, .pop_rsi,
        .pop_rdi,
        .pop_rsi, .ret],
       [.atom x, .atom y]⟩ := rfl
  simp only [compileAndRun, hc, Except.map]
  cases hres : op_add [object.atom y, object.atom x] with
  | error e =>
    simp [native_function.run, initState, exec, execInstr, applyTarget, hres,
      Except.map, bindOkE, bindErrE]
  | ok st =>
    simp [native_function.run, initState, exec, execInstr, applyTarget, hres,
      Except.map, bindOkE, bindErrE]

/-- Helper for C7: the effect of `op_add` on a two-atom stack is
invariant under swapping the operands — whichever operand fails to
parse as a `long`, some read throws and both orders produce the same
exception; the overflow check and the sum are on the same commutative
addition. -/
theorem op_add_comm_pair (s t : String) :
    op_add [.atom s, .atom t] = op_add [.atom t, .atom s] := by
  have hL : ∀ u w : String, op_add [object.atom u, object.atom w] = (do
      let a ← readIntTop (object.atom u)
      let b ← readIntTop (object.atom w)
      if inLongRange (a + b) then
        Except.ok [object.atom (to_string (a + b))]
      else Except.error fault.signedOverflow) := fun u w => rfl
  have hrN : ∀ u : String, stol u = none →
      readIntTop (object.atom u) = Except.error fault.parseFailure := by
    intro u hu
    simp only [readIntTop, hu]
  have hrS : ∀ (u : String) (n : Int), stol u = some n →
      readIntTop (object.atom u) = Except.ok n := by
    intro u n hu
    simp only [readIntTop, hu]
  rw [hL, hL]
  cases hs : stol s with
  | none =>
    cases ht : stol t with
    | none => simp only [hrN s hs, hrN t ht, bindErrE]
    | some n => simp only [hrN s hs, hrS t n ht, bindOkE, bindErrE]
  | some m =>
    cases ht : stol t with
    | none => simp only [hrS s m hs, hrN t ht, bindOkE, bindErrE]
    | some n =>
      simp only [hrS s m hs, hrS t n ht, bindOkE]
      rw [Int.add_comm n m]

/-- C7: addition at the source level is commutative through the whole
pipeline — for all integers `a` and `b`, compiling and invoking
`(+ a b)` (literals written with `std::to_string`) yields the same
result Object as compiling and invoking `(+ b a)`: out-of-`long`-range
literals make `std::stol` throw in both orders alike, an overflowing
sum faults in both orders alike, and otherwise both runs leave the atom
of the commutative sum. -/
theorem claim_C7 : ∀ a b : Int,
    compileAndRun "+" [.atom (to_string a), .atom (to_string b)] =
      compileAndRun "+" [.atom (to_string b), .atom (to_string a)] := by
  intro a b
  rw [run_add_pair, run_add_pair, op_add_comm_pair]

/-- C9: in every successfully compiled region the `mov rdx, imm32`
operands embedded in the code are, in emission order, exactly
`0, 1, …, L−1` for a final immediates table of length `L` — the k-th
push-immediate sequence carries index k — so every embedded index is in
bounds and the run of the region can never fault on the unchecked
`m_immediates[idx]` access inside `immediate` as reached through
`do_push_imm`. -/
theorem claim_C9 : ∀ (op : String) (cs : List object) (fn : native_function),
    compile op cs = .ok fn →
    immIndices fn.code = List.range fn.immediates.length ∧
    fn.run ≠ .error .oobImmediate := by
  intro op cs fn h
  obtain ⟨body, t, hb, hcc, hcode⟩ := compile_shape op cs fn h
  have hidx := compileChildren_indices cs [] body fn.immediates hcc
  have himm : fn.immediates = litsList cs := by
    simpa using compileChildren_imms cs [] body fn.immediates hcc
  have ha : immIndices fn.code = List.range fn.immediates.length := by
    rw [hcode]
    rw [show immIndices (instr.push_rsi ::
        ((body ++ callSeq t) ++ [instr.pop_rsi, instr.ret])) =
      immIndices ((body ++ callSeq t) ++ [instr.pop_rsi, instr.ret]) from rfl]
    rw [immIndices_append, immIndices_append, immIndices_callSeq,
      show immIndices [instr.pop_rsi, instr.ret] = [] from rfl,
      List.append_nil, List.append_nil, hidx, himm]
    rw [show (([] : List object)).length = 0 from rfl]
    rw [List.range_eq_range']
  refine ⟨ha, ?_⟩
  intro hcontra
  rw [native_function.run] at hcontra
  refine exec_no_oob fn.code fn.immediates initState ?_ ?_ hcontra
  · intro i hi
    rw [ha] at hi
    exact List.mem_range.mp hi
  · intro j hj
    exact Option.noConfusion hj

/-- C9 witness: the region of `(+ 1 2)`, whose code embeds exactly the
indices 0 and 1 for its two immediates, by applying the theorem. -/
theorem claim_C9_witness :
    immIndices fnAdd12.code = List.range fnAdd12.immediates.length ∧
    fnAdd12.run ≠ .error .oobImmediate :=
  claim_C9 "+" [.atom "1", .atom "2"] fnAdd12 (by decide)

/-- C10: the emitted instruction stream of every compiled region is
machine-stack balanced: it starts with the prologue `push rsi`, ends
with the matching `pop rsi` directly followed by the single `ret` (no
other `ret` occurs), and the net `RSP` movement of everything before
that `ret` is zero — each save/call/restore group and each
push-immediate group is individually balanced — so `RSP` at the final
`ret` equals `RSP` at entry and the `ret` returns to the trampoline's
call site. -/
theorem claim_C10 : ∀ (op : String) (cs : List object) (fn : native_function),
    compile op cs = .ok fn →
    fn.code.head? = some .push_rsi ∧
    fn.code.drop (fn.code.length - 2) = [.pop_rsi, .ret] ∧
    instr.ret ∉ fn.code.take (fn.code.length - 1) ∧
    sumDelta (fn.code.take (fn.code.length - 1)) = 0 := by
  intro op cs fn h
  obtain ⟨body, t, hb, hcc, hcode⟩ := compile_shape op cs fn h
  obtain ⟨hsum, _, hret⟩ := compileChildren_rsp cs [] body fn.immediates hcc
  have hsumB : sumDelta (body ++ callSeq t) = 0 := by
    rw [sumDelta_append, hsum, sumDelta_callSeq]
    omega
  have hretB : instr.ret ∉ body ++ callSeq t := by
    rw [List.mem_append]
    rintro (hm | hm)
    · exact hret hm
    · exact ret_not_mem_callSeq t hm
  have hL : (instr.push_rsi :: ((body ++ callSeq t) ++ [instr.pop_rsi, instr.ret])).length
      = (body ++ callSeq t).length + 3 := by
    simp
    omega
  have htake : List.take ((body ++ callSeq t).length + 2)
      (instr.push_rsi :: ((body ++ callSeq t) ++ [instr.pop_rsi, instr.ret])) =
      instr.push_rsi :: ((body ++ callSeq t) ++ [instr.pop_rsi]) := by
    rw [show (body ++ callSeq t).length + 2 = (body ++ callSeq t).length + 1 + 1
      from by omega]
    rw [List.take_succ_cons]
    congr 1
    rw [List.take_append 1]
    rfl
  refine ⟨?_, ?_, ?_, ?_⟩
  · rw [hcode]
    rfl
  · rw [hcode, hL]
    rw [show (body ++ callSeq t).length + 3 - 2 = (body ++ callSeq t).length + 1
      from by omega]
    rw [List.drop_succ_cons]
    exact List.drop_left (body ++ callSeq t) [instr.pop_rsi, instr.ret]
  · rw [hcode, hL]
    rw [show (body ++ callSeq t).length + 3 - 1 = (body ++ callSeq t).length + 2
      from by omega]
    rw [htake]
    intro hm
    rcases List.mem_cons.mp hm with h1 | h1
    · exact absurd h1 (by decide)
    · rcases List.mem_append.mp h1 with h2 | h2
      · exact hretB h2
      · simp at h2
  · rw [hcode, hL]
    rw [show (body ++ callSeq t).length + 3 - 1 = (body ++ callSeq t).length + 2
      from by omega]
    rw [htake, sumDelta_cons, sumDelta_append, hsumB]
    decide

/-- C10 witness: the region of `(+ 1 2)`, by applying the theorem. -/
theorem claim_C10_witness :
    fnAdd12.code.head? = some .push_rsi ∧
    fnAdd12.code.drop (fnAdd12.code.length - 2) = [.pop_rsi, .ret] ∧
    instr.ret ∉ fnAdd12.code.take (fnAdd12.code.length - 1) ∧
    sumDelta (fnAdd12.code.take (fnAdd12.code.length - 1)) = 0 :=
  claim_C10 "+" [.atom "1", .atom "2"] fnAdd12 (by decide)


end sexpr
